import Mathlib

/-
  Verification development for the `apidiff` markdown API-diff tool
  (two near-duplicate Python 2 scripts: `java/markdowndiff.py` and
  `android/markdowndiff.py`).

  Strings are modelled as `List Char`.  The scripts are Python 2, so the
  regex classes are byte-oriented: `\s` is the six-character whitespace
  class, `.` matches anything except a newline, and string comparison is
  bytewise lexicographic (identical to codepoint order on the ASCII data
  these tools process).
-/

namespace ApiDiff

abbrev Str := List Char

/-- Whitespace class of Python 2 regex `\s` (also the class stripped by
`str.strip()`). -/
def isPySpace (c : Char) : Bool :=
  c = ' ' || c = '\t' || c = '\n' || c = '\x0b' || c = '\x0c' || c = '\x0d'

/-- Character class of the regex wildcard `.`: anything except a newline. -/
def isDotCh (c : Char) : Bool := c ≠ '\n'

/-- Model of `SymbolId = namedtuple('SymbolId', 'klass kind signature')`. -/
structure SymbolId where
  klass : Str
  kind : Nat
  signature : Str
deriving DecidableEq

-- `class Kind: KLASS, CONSTRUCTOR, FIELD, METHOD = range(1, 5)`
namespace Kind

def KLASS : Nat := 1
def CONSTRUCTOR : Nat := 2
def FIELD : Nat := 3
def METHOD : Nat := 4

end Kind

/-- The closed change variants `Addition`, `Deletion`, `Modification`,
parametric in the definition payload (a record in the java variant, a bare
string in the android variant). -/
inductive Change (D : Type) where
  | addition (symbol_id : SymbolId) (definition : D)
  | deletion (symbol_id : SymbolId) (definition : D)
  | modification (symbol_id : SymbolId) (old_definition new_definition : D)
deriving DecidableEq

def Change.symbolId {D : Type} : Change D → SymbolId
  | .addition i _ => i
  | .deletion i _ => i
  | .modification i _ _ => i

/-! ### Python string / tuple ordering (`sorted`) -/

/-- Python 2 bytewise `<` on strings. -/
def strLtB : Str → Str → Bool
  | [], [] => false
  | [], _ :: _ => true
  | _ :: _, [] => false
  | a :: as, b :: bs => if a < b then true else if b < a then false else strLtB as bs

theorem strLtB_irrefl (s : Str) : strLtB s s = false := by
  induction s with
  | nil => rfl
  | cons a as ih => simp [strLtB, ih]

theorem strLtB_asymm : ∀ {a b : Str}, strLtB a b = true → strLtB b a = false
  | [], [], h => by simp [strLtB] at h
  | [], _ :: _, _ => rfl
  | _ :: _, [], h => by simp [strLtB] at h
  | a :: as, b :: bs, h => by
    simp only [strLtB] at h ⊢
    rcases lt_trichotomy a b with hab | hab | hab
    · simp [hab, not_lt_of_lt hab]
    · subst hab; simp only [lt_irrefl, if_false] at h ⊢; exact strLtB_asymm h
    · simp [hab, not_lt_of_lt hab] at h

theorem strLtB_trans : ∀ {a b c : Str},
    strLtB a b = true → strLtB b c = true → strLtB a c = true
  | [], [], _, h, _ => by simp [strLtB] at h
  | [], _ :: _, [], _, h => by simp [strLtB] at h
  | [], _ :: _, _ :: _, _, _ => rfl
  | _ :: _, [], _, h, _ => by simp [strLtB] at h
  | _ :: _, _ :: _, [], _, h => by simp [strLtB] at h
  | a :: as, b :: bs, c :: cs, h1, h2 => by
    simp only [strLtB] at h1 h2 ⊢
    rcases lt_trichotomy a b with hab | hab | hab
    · rcases lt_trichotomy b c with hbc | hbc | hbc
      · simp [lt_trans hab hbc]
      · subst hbc; simp [hab]
      · simp [hbc, not_lt_of_lt hbc] at h2
    · subst hab
      rcases lt_trichotomy a c with hac | hac | hac
      · simp [hac]
      · subst hac
        simp only [lt_irrefl, if_false] at h1 h2 ⊢
        exact strLtB_trans h1 h2
      · simp [hac, not_lt_of_lt hac] at h2
    · simp [hab, not_lt_of_lt hab] at h1

theorem strLtB_conn : ∀ {a b : Str},
    strLtB a b = false → strLtB b a = false → a = b
  | [], [], _, _ => rfl
  | [], _ :: _, h, _ => by simp [strLtB] at h
  | _ :: _, [], _, h => by simp [strLtB] at h
  | a :: as, b :: bs, h1, h2 => by
    simp only [strLtB] at h1 h2
    rcases lt_trichotomy a b with hab | hab | hab
    · simp [hab] at h1
    · subst hab
      simp only [lt_irrefl, if_false] at h1 h2
      rw [strLtB_conn h1 h2]
    · simp [hab] at h2

/-- From not-less both ways, derive equality-or-strict-less. -/
theorem strLtB_not_lt {a b : Str} (h : strLtB b a = false) :
    strLtB a b = true ∨ a = b := by
  by_cases hab : strLtB a b = true
  · exact Or.inl hab
  · exact Or.inr (strLtB_conn (by simpa using hab) h)

/-- Python `<` on `SymbolId` tuples: lexicographic on
`(klass, kind, signature)`. -/
def symbolIdLtB (a b : SymbolId) : Bool :=
  strLtB a.klass b.klass ||
    (decide (a.klass = b.klass) &&
      (decide (a.kind < b.kind) ||
        (decide (a.kind = b.kind) && strLtB a.signature b.signature)))

def symbolIdLeB (a b : SymbolId) : Bool := !(symbolIdLtB b a)

/-- The total order used to model Python's `sorted` over `SymbolId`s. -/
def symbolIdLe (a b : SymbolId) : Prop := symbolIdLeB a b = true

instance : DecidableRel symbolIdLe := fun a b =>
  inferInstanceAs (Decidable (symbolIdLeB a b = true))

theorem symbolIdLtB_iff {a b : SymbolId} :
    symbolIdLtB a b = true ↔
      (strLtB a.klass b.klass = true ∨
        (a.klass = b.klass ∧ (a.kind < b.kind ∨
          (a.kind = b.kind ∧ strLtB a.signature b.signature = true)))) := by
  simp [symbolIdLtB]

theorem symbolIdLtB_irrefl (a : SymbolId) : symbolIdLtB a a = false := by
  simp [symbolIdLtB, strLtB_irrefl]

theorem symbolIdLtB_asymm {a b : SymbolId} (h : symbolIdLtB a b = true) :
    symbolIdLtB b a = false := by
  rw [symbolIdLtB_iff] at h
  rw [Bool.eq_false_iff]
  intro h2
  rw [symbolIdLtB_iff] at h2
  rcases h with h | ⟨hk, h⟩
  · rcases h2 with h2 | ⟨hk2, _⟩
    · have := strLtB_asymm h; rw [h2] at this; exact Bool.noConfusion this
    · rw [hk2] at h; rw [strLtB_irrefl] at h; exact Bool.noConfusion h.symm
  · rcases h2 with h2 | ⟨_, h2⟩
    · rw [hk] at h2; rw [strLtB_irrefl] at h2; exact Bool.noConfusion h2.symm
    · rcases h with h | ⟨hi, h⟩
      · rcases h2 with h2 | ⟨hi2, _⟩
        · omega
        · omega
      · rcases h2 with h2 | ⟨_, h2⟩
        · omega
        · have := strLtB_asymm h; rw [h2] at this; exact Bool.noConfusion this

theorem symbolIdLtB_trans {a b c : SymbolId} (h1 : symbolIdLtB a b = true)
    (h2 : symbolIdLtB b c = true) : symbolIdLtB a c = true := by
  rw [symbolIdLtB_iff] at h1 h2 ⊢
  rcases h1 with h1 | ⟨hk1, h1⟩
  · rcases h2 with h2 | ⟨hk2, _⟩
    · exact Or.inl (strLtB_trans h1 h2)
    · exact Or.inl (hk2 ▸ h1)
  · rcases h2 with h2 | ⟨hk2, h2⟩
    · exact Or.inl (hk1 ▸ h2)
    · refine Or.inr ⟨hk1.trans hk2, ?_⟩
      rcases h1 with h1 | ⟨hi1, h1⟩
      · rcases h2 with h2 | ⟨hi2, _⟩
        · exact Or.inl (by omega)
        · exact Or.inl (by omega)
      · rcases h2 with h2 | ⟨hi2, h2⟩
        · exact Or.inl (by omega)
        · exact Or.inr ⟨hi1.trans hi2, strLtB_trans h1 h2⟩

theorem symbolIdLtB_conn {a b : SymbolId} (h1 : symbolIdLtB a b = false)
    (h2 : symbolIdLtB b a = false) : a = b := by
  rcases a with ⟨ak, ai, asg⟩; rcases b with ⟨bk, bi, bsg⟩
  rw [Bool.eq_false_iff] at h1 h2
  rw [Ne, symbolIdLtB_iff] at h1 h2
  push_neg at h1 h2
  simp only at h1 h2
  obtain ⟨hlt1, h1⟩ := h1
  obtain ⟨hlt2, h2⟩ := h2
  have hk : ak = bk := strLtB_conn (by simpa using hlt1) (by simpa using hlt2)
  subst hk
  have h1' := h1 rfl
  have h2' := h2 rfl
  obtain ⟨hi1, h1''⟩ := h1'
  obtain ⟨hi2, h2''⟩ := h2'
  have hi : ai = bi := by omega
  subst hi
  have := strLtB_conn (by simpa using h1'' rfl) (by simpa using h2'' rfl)
  rw [this]

instance : IsTotal SymbolId symbolIdLe := by
  constructor
  intro a b
  simp only [symbolIdLe, symbolIdLeB, Bool.not_eq_true']
  by_cases h : symbolIdLtB b a = true
  · exact Or.inr (symbolIdLtB_asymm h)
  · exact Or.inl (by simpa using h)

instance : IsTrans SymbolId symbolIdLe := by
  constructor
  intro a b c h1 h2
  simp only [symbolIdLe, symbolIdLeB, Bool.not_eq_true'] at h1 h2 ⊢
  rw [Bool.eq_false_iff]
  intro hca
  by_cases hab : symbolIdLtB a b = true
  · by_cases hbc : symbolIdLtB b c = true
    · have := symbolIdLtB_asymm (symbolIdLtB_trans hab hbc)
      rw [hca] at this; exact Bool.noConfusion this
    · have hcb : b = c := symbolIdLtB_conn (by simpa using hbc) h2
      subst hcb
      have := symbolIdLtB_asymm hab
      rw [hca] at this; exact Bool.noConfusion this
  · have hba : a = b := symbolIdLtB_conn (by simpa using hab) h1
    subst hba
    by_cases hbc : symbolIdLtB a c = true
    · have := symbolIdLtB_asymm hbc
      rw [hca] at this; exact Bool.noConfusion this
    · have : a = c := symbolIdLtB_conn (by simpa using hbc) h2
      subst this
      rw [symbolIdLtB_irrefl] at hca; exact Bool.noConfusion hca.symm

instance : IsAntisymm SymbolId symbolIdLe := by
  constructor
  intro a b h1 h2
  simp only [symbolIdLe, symbolIdLeB, Bool.not_eq_true'] at h1 h2
  exact symbolIdLtB_conn h2 h1

/-- Bytewise `≤` as a Prop, for sorting report keys (class names). -/
def strLe (a b : Str) : Prop := strLtB b a = false

instance : DecidableRel strLe := fun a b =>
  inferInstanceAs (Decidable (strLtB b a = false))

instance : IsTotal Str strLe := by
  constructor
  intro a b
  simp only [strLe]
  by_cases h : strLtB b a = true
  · exact Or.inr (strLtB_asymm h)
  · exact Or.inl (by simpa using h)

instance : IsTrans Str strLe := by
  constructor
  intro a b c h1 h2
  simp only [strLe] at h1 h2 ⊢
  rw [Bool.eq_false_iff]
  intro hca
  rcases strLtB_not_lt h1 with hab | hab
  · rcases strLtB_not_lt h2 with hbc | hbc
    · have := strLtB_asymm (strLtB_trans hab hbc)
      rw [hca] at this; exact Bool.noConfusion this
    · subst hbc
      have := strLtB_asymm hab
      rw [hca] at this; exact Bool.noConfusion this
  · subst hab
    rcases strLtB_not_lt h2 with hbc | hbc
    · have := strLtB_asymm hbc
      rw [hca] at this; exact Bool.noConfusion this
    · subst hbc
      rw [strLtB_irrefl] at hca; exact Bool.noConfusion hca.symm

instance : IsAntisymm Str strLe := by
  constructor
  intro a b h1 h2
  exact (strLtB_conn h1 h2).symm

/-! ### The `modifiers` regex group

All four classification patterns in both scripts start with

  `modifiers = '(?:public\s+|protected\s+|...|volatile\s+)+'`

i.e. ONE OR MORE repetitions of a modifier keyword followed by a nonempty
whitespace run.  Since no modifier keyword is a prefix of another and each
alternative demands whitespace right after the keyword, the decomposition of
a maximal modifier run into `(keyword, whitespace run)` repetitions is
unique.  Backtracking of the regex engine can, however, re-expose a suffix
of the run to the rest of the pattern: the engine tries, in this order,
stopping after the whole run, shrinking the final repetition's whitespace
one character at a time, then dropping the final repetition entirely (so
the rest of the pattern restarts at that keyword), and so on.
`restCandidates` enumerates exactly these rest strings, in the engine's
priority order; the first one on which the rest of a pattern matches gives
the overall match. -/

def modifierKeywords : List Str :=
  ["public".data, "protected".data, "private".data, "static".data,
    "abstract".data, "final".data, "native".data, "strictfp".data,
    "synchronized".data, "transient".data, "volatile".data]

/-- Does `s` start with the literal `p`? -/
def startsWithL (p s : Str) : Bool := decide (s.take p.length = p)

/-- Match one repetition `keyword\s+` with a greedy (maximal) whitespace
run; returns the keyword, the whitespace run and the rest. -/
def matchOneModSplit (s : Str) : Option (Str × Str × Str) :=
  modifierKeywords.findSome? fun kw =>
    if startsWithL kw s then
      let r := s.drop kw.length
      let w := r.takeWhile isPySpace
      if w.isEmpty then none
      else some (kw, w, r.dropWhile isPySpace)
    else none

/-- The rests exposed by shrinking one repetition's trailing whitespace
run `w`, most-consumed first: `rest`, then one retained whitespace
character, two, ..., up to all but one consumed. -/
def wsBacktracks (w rest : Str) : List Str :=
  (List.range w.length).map fun i => w.drop (w.length - i) ++ rest

/-- Fuelled enumeration of the rest strings the engine offers to the part
of a pattern that follows the `modifiers` group (see above). -/
def restCandidatesF : Nat → Str → List Str
  | 0, _ => []
  | fuel + 1, s =>
    match matchOneModSplit s with
    | none => []
    | some (_, w, rest) => restCandidatesF fuel rest ++ wsBacktracks w rest

def restCandidates (s : Str) : List Str := restCandidatesF (s.length + 1) s

/-! ### The trailing parts of the four patterns

After the `modifiers` group the patterns continue with

  Klass (java):     `(class|interface|enum)\s+(\S+)(.*)`
  Klass (android):  `class\s+(\S+).*`
  Method:           `(.+?\s+(\S+\(.*\))).*`
  Constructor:      `(\S+\(.*\)).*`
  Field:            `(.+?\s+(\S+))`

Each is matched deterministically: `\s+` before `\S+` is forced maximal
(shrinking it would put a whitespace character under `\S`), `\S+` before a
literal `(` backtracks to the rightmost viable `(`, the inner `.*` before
`\)` backtracks to the last `)` (within the current line: `.` does not
cross a newline), lazy `.+?` grows from one character up, and a trailing
`.*` always succeeds because `re.match` only needs a prefix match. -/

/-- Index of the last `)` in `l`, if any. -/
def lastCloseIdx : Str → Option Nat
  | [] => none
  | c :: r =>
    match lastCloseIdx r with
    | some i => some (i + 1)
    | none => if c = ')' then some 0 else none

/-- Match `\S+\(.*\)` at the start of `r` (used by the Method and
Constructor patterns); returns the matched text and the rest after it. -/
def matchParenInner (r : Str) : Option (Str × Str) :=
  let ns := r.takeWhile fun c => !isPySpace c
  (List.range ns.length).reverse.findSome? fun t =>
    if t = 0 then none
    else if r.get? t = some '(' then
      let scope := (r.drop (t + 1)).takeWhile isDotCh
      match lastCloseIdx scope with
      | none => none
      | some u => some (r.take (t + u + 2), r.drop (t + u + 2))
    else none

/-- Match `.+?\s+(\S+\(.*\)).*` at the start of `r`; returns the pair
(group `object_type + signature`, group `signature`). -/
def matchMethodRest (r : Str) : Option (Str × Str) :=
  (List.range r.length).findSome? fun i0 =>
    let i := i0 + 1
    if (r.take i).all isDotCh then
      let r1 := r.drop i
      let w := r1.takeWhile isPySpace
      if w.isEmpty then none
      else
        match matchParenInner (r1.dropWhile isPySpace) with
        | some (g2, _) => some (r.take i ++ w ++ g2, g2)
        | none => none
    else none

/-- Match `.+?\s+(\S+)` at the start of `r` (Field pattern); returns the
pair (group `object_type + name`, group `name`). -/
def matchFieldRest (r : Str) : Option (Str × Str) :=
  (List.range r.length).findSome? fun i0 =>
    let i := i0 + 1
    if (r.take i).all isDotCh then
      let r1 := r.drop i
      let w := r1.takeWhile isPySpace
      if w.isEmpty then none
      else
        let r2 := r1.dropWhile isPySpace
        let sig := r2.takeWhile fun c => !isPySpace c
        if sig.isEmpty then none
        else some (r.take i ++ w ++ sig, sig)
    else none

def klassKeywords : List Str := ["class".data, "interface".data, "enum".data]

/-- Match `(class|interface|enum)\s+(\S+)(.*)` at the start of `r` (java
Klass pattern); returns the three groups.  The three alternatives start
with distinct letters, so at most one can apply at a given position and
the commit below is faithful to the engine's alternation. -/
def matchKlassRest (r : Str) : Option (Str × Str × Str) :=
  klassKeywords.findSome? fun kw =>
    if startsWithL kw r then
      let r1 := r.drop kw.length
      let w := r1.takeWhile isPySpace
      if w.isEmpty then none
      else
        let r2 := r1.dropWhile isPySpace
        let sig := r2.takeWhile fun c => !isPySpace c
        if sig.isEmpty then none
        else some (kw, sig, (r2.dropWhile fun c => !isPySpace c).takeWhile isDotCh)
    else none

/-- Match `class\s+(\S+).*` at the start of `r` (android Klass pattern);
returns the signature group. -/
def matchKlassRestA (r : Str) : Option Str :=
  if startsWithL ("class".data) r then
    let r1 := r.drop 5
    let w := r1.takeWhile isPySpace
    if w.isEmpty then none
    else
      let r2 := r1.dropWhile isPySpace
      let sig := r2.takeWhile fun c => !isPySpace c
      if sig.isEmpty then none
      else some sig
  else none

end ApiDiff

namespace ApiDiff.Java

/-- Model of the java variant's
`Definition = namedtuple('Definition', 'full short kind_description')`. -/
structure Definition where
  full : Str
  short : Str
  kind_description : Str
deriving DecidableEq

instance : Inhabited Definition := ⟨⟨[], [], []⟩⟩

/-- Model of `_parse_full_definition` of `java/markdowndiff.py`: the four
patterns are tried in order Klass, Method, Constructor, Field; on each, the
`modifiers` group's backtracking candidates are tried in engine order.  A
`none` result models the `Exception('Could not parse ...')`. -/
def parseFullDefinition (s : Str) : Option (Nat × Str × Str × Str) :=
  let cands := restCandidates s
  match cands.findSome? matchKlassRest with
  | some (kw, sig, cl) =>
    if kw = "interface".data ∧ cl = " extends java.lang.annotation.Annotation".data then
      some (Kind.KLASS, sig, '@' :: sig, "annotation".data)
    else
      some (Kind.KLASS, sig, sig, kw)
  | none =>
  match cands.findSome? matchMethodRest with
  | some (g1, g2) => some (Kind.METHOD, g2, g1, "method".data)
  | none =>
  match cands.findSome? (fun r => matchParenInner r) with
  | some (g, _) => some (Kind.CONSTRUCTOR, g, g, "constructor".data)
  | none =>
  match cands.findSome? matchFieldRest with
  | some (g1, g2) => some (Kind.FIELD, g2, g1, "field".data)
  | none => none

end ApiDiff.Java

namespace ApiDiff.Android

/-- Model of `_kind_and_signature_for_definition` of
`android/markdowndiff.py` (its Klass pattern only recognizes the keyword
`class`, and only signatures are extracted). -/
def kindAndSignatureForDefinition (s : Str) : Option (Nat × Str) :=
  let cands := restCandidates s
  match cands.findSome? matchKlassRestA with
  | some sig => some (Kind.KLASS, sig)
  | none =>
  match cands.findSome? matchMethodRest with
  | some (_, g2) => some (Kind.METHOD, g2)
  | none =>
  match cands.findSome? (fun r => matchParenInner r) with
  | some (g, _) => some (Kind.CONSTRUCTOR, g)
  | none =>
  match cands.findSome? matchFieldRest with
  | some (_, g2) => some (Kind.FIELD, g2)
  | none => none

end ApiDiff.Android

namespace ApiDiff

/-! ### Symbol tables

A Python dict is modelled as a chronological association list: an entry
added later comes later in the list, and lookup takes the LAST binding of
a key (so `dict.update` / repeated assignment overwrite earlier bindings,
exactly as in the scripts).  Key sets go through `keysOf`, which models
`set(symbols.keys())`. -/

def keysOf {D : Type} (t : List (SymbolId × D)) : List SymbolId :=
  (t.map Prod.fst).dedup

def dlookup {D : Type} (t : List (SymbolId × D)) (k : SymbolId) : Option D :=
  (t.reverse.find? fun p => decide (p.1 = k)).map Prod.snd

def getD {D : Type} [Inhabited D] (t : List (SymbolId × D)) (k : SymbolId) : D :=
  (dlookup t k).getD default

/-- Every two bindings of the same key in `t` carry the same value. -/
def consistentB {D : Type} [DecidableEq D] (t : List (SymbolId × D)) : Bool :=
  t.all fun p => t.all fun q => !(decide (p.1 = q.1)) || decide (p.2 = q.2)

def consistentOptB {D : Type} [DecidableEq D] : Option (List (SymbolId × D)) → Bool
  | none => true
  | some t => consistentB t

/-- Sequencing of fallible steps over a list (a raised exception in the
scripts is modelled by `none`, which aborts the whole run). -/
def mapOpt {α β : Type} (f : α → Option β) : List α → Option (List β)
  | [] => some []
  | a :: l =>
    match f a with
    | none => none
    | some b => (mapOpt f l).map fun bs => b :: bs

/-! ### The diff engine `_changes`

Identical in both scripts except for the modification test, which is
abstracted as `differ`.  The `defaultdict(list)` report keyed by class is
recovered from the flat, processing-ordered change list by `bucketFor`
(appending to per-class buckets in processing order is the same as
filtering the flat list by class). -/

def changesFlat {D : Type} [Inhabited D] (differ : D → D → Bool)
    (old_symbols new_symbols : List (SymbolId × D)) : List (Change D) :=
  let old := keysOf old_symbols
  let new := keysOf new_symbols
  let added := (new.filter fun k => decide (k ∉ old)).insertionSort symbolIdLe
  let deleted := (old.filter fun k => decide (k ∉ new)).insertionSort symbolIdLe
  let persisted := (old.filter fun k => decide (k ∈ new)).insertionSort symbolIdLe
  (added.map fun k => Change.addition k (getD new_symbols k)) ++
  (deleted.map fun k => Change.deletion k (getD old_symbols k)) ++
  ((persisted.filter fun k => differ (getD old_symbols k) (getD new_symbols k)).map
    fun k => Change.modification k (getD old_symbols k) (getD new_symbols k))

def bucketFor {D : Type} (cs : List (Change D)) (k : Str) : List (Change D) :=
  cs.filter fun c => decide (c.symbolId.klass = k)

/-! ### The name simplifier `_simplify` / `_simplify_token`

`re.split` with a captured single-character boundary class cuts the string
into maximal boundary-free runs (possibly empty) separated by single
boundary characters, and keeps the boundary characters in the result list;
`_simplify_token` is then mapped over ALL pieces and the results joined.
A boundary character is never `.` or `$`, so `_simplify_token` leaves the
boundary pieces unchanged and the fuelled recursion below (token, boundary,
token, boundary, ...) computes the same string. -/

/-- Everything after the last occurrence of `d` (the whole token if `d`
does not occur): `token[token.rfind(d)+1:]`. -/
def suffixAfterLast (d : Char) (t : Str) : Str :=
  (t.reverse.takeWhile fun c => c ≠ d).reverse

/-- Model of `_simplify_token`: strip through the last `.`, then through
the last `$`. -/
def simplifyToken (t : Str) : Str := suffixAfterLast '$' (suffixAfterLast '.' t)

def simplifyF (isB : Char → Bool) : Nat → Str → Str
  | 0, _ => []
  | fuel + 1, s =>
    let tok := s.takeWhile fun c => !isB c
    match s.dropWhile fun c => !isB c with
    | [] => simplifyToken tok
    | b :: r => simplifyToken tok ++ b :: simplifyF isB fuel r

def simplifyWith (isB : Char → Bool) (s : Str) : Str := simplifyF isB (s.length + 1) s

/-- The boundary-free runs of `s`, in order (observation function used to
state the token/boundary-preservation claims). -/
def toksF (isB : Char → Bool) : Nat → Str → List Str
  | 0, _ => []
  | fuel + 1, s =>
    let tok := s.takeWhile fun c => !isB c
    match s.dropWhile fun c => !isB c with
    | [] => [tok]
    | _ :: r => tok :: toksF isB fuel r

def toksWith (isB : Char → Bool) (s : Str) : List Str := toksF isB (s.length + 1) s

/-- The boundary characters of `s`, in order. -/
def bndsF (isB : Char → Bool) : Nat → Str → Str
  | 0, _ => []
  | fuel + 1, s =>
    match s.dropWhile fun c => !isB c with
    | [] => []
    | b :: r => b :: bndsF isB fuel r

def bndsWith (isB : Char → Bool) (s : Str) : Str := bndsF isB (s.length + 1) s

/-- Boundary class of the java `_simplify`: `(\(|\)|\s|<|>|,|@)`. -/
def isBoundaryJ (c : Char) : Bool :=
  c = '(' || c = ')' || isPySpace c || c = '<' || c = '>' || c = ',' || c = '@'

/-- Boundary class of the android `_simplify`: `(\(|\)|\s|<|>|,)`. -/
def isBoundaryA (c : Char) : Bool :=
  c = '(' || c = ')' || isPySpace c || c = '<' || c = '>' || c = ','

/-! ### The renderer `_print_markdown`

`sorted(report.iteritems())` sorts the per-class buckets by the raw class
name; each section prints the heading, a blank line, the entries joined by
a blank line, and two blank lines.  Python's `print` emits its argument
plus a newline.  If rendering an entry raises (see the variants' entry
functions), the heading and blank line of the current section have already
been printed and the run aborts: the boolean in the result records whether
rendering ran to completion. -/

def emittedKlasses {D : Type} (cs : List (Change D)) : List Str :=
  ((cs.map fun c => c.symbolId.klass).dedup).insertionSort strLe

def renderGo {D : Type} (sf : Str → Str) (entry : Change D → Option Str)
    (cs : List (Change D)) : List Str → Str × Bool
  | [] => ([], true)
  | k :: ks =>
    let head := "## ".data ++ sf k ++ "\n\n".data
    match mapOpt entry (bucketFor cs k) with
    | none => (head, false)
    | some es =>
      let rest := renderGo sf entry cs ks
      (head ++ List.intercalate ("\n\n".data) es ++ "\n\n\n".data ++ rest.1, rest.2)

def renderWith {D : Type} (sf : Str → Str) (entry : Change D → Option Str)
    (cs : List (Change D)) : Str × Bool :=
  renderGo sf entry cs (emittedKlasses cs)

/-! ### The snapshot parser `_symbols_for_klass`

`f.readlines()` keeps line terminators, but every processed line is
immediately `strip()`ped, so a file is modelled as the list of its lines'
contents.  The last line is skipped (`index == len(lines) - 1`); every
other line is stripped, loses its final character unconditionally
(`[:-1]`), is stripped again, and is classified.  The first line's
signature becomes the `klass` of every entry of the file, including its
own. -/

def stripWS (s : Str) : Str :=
  ((s.dropWhile isPySpace).reverse.dropWhile isPySpace).reverse

def procLine (l : Str) : Str := stripWS (stripWS l).dropLast

end ApiDiff

namespace ApiDiff.Java

def rowsFor (sig0 : Str) : List Str → Option (List (SymbolId × Definition))
  | [] => some []
  | l :: ls =>
    match parseFullDefinition (procLine l) with
    | none => none
    | some (k, sg, sh, kd) =>
      (rowsFor sig0 ls).map fun rest =>
        (SymbolId.mk sig0 k sg, Definition.mk (procLine l) sh kd) :: rest

def symbolsForKlass (lines : List Str) : Option (List (SymbolId × Definition)) :=
  match lines.dropLast with
  | [] => some []
  | l0 :: rest =>
    match parseFullDefinition (procLine l0) with
    | none => none
    | some (k0, sig0, sh0, kd0) =>
      (rowsFor sig0 rest).map fun tail =>
        (SymbolId.mk sig0 k0 sig0, Definition.mk (procLine l0) sh0 kd0) :: tail

/-- Model of `_symbols_for_library`: `os.walk` enumerates the snapshot's
files in some order (the list order here) and the per-file symbol maps are
merged with `dict.update` (chronological concatenation, last write wins). -/
def symbolsForLibrary (files : List (List Str)) : Option (List (SymbolId × Definition)) :=
  (mapOpt symbolsForKlass files).map List.flatten

/-- The java `_changes` compares `old_definition.full != new_definition.full`. -/
def changes (old_symbols new_symbols : List (SymbolId × Definition)) :
    List (Change Definition) :=
  changesFlat (fun a b => decide (a.full ≠ b.full)) old_symbols new_symbols

def simplify (s : Str) : Str := simplifyWith isBoundaryJ s

/-- Model of the java `_markdown_for_change`.  For a `Modification` it
calls `_markdown_for_kind`, which reads `change.definition` — an attribute
the `Modification` namedtuple does not have, so the java variant raises an
`AttributeError` on every modification entry (modelled by `none`). -/
def markdownForChange : Change Definition → Option Str
  | .addition _ d =>
    some ("*new* ".data ++ d.kind_description ++ ": `".data ++ simplify d.short ++ "`".data)
  | .deletion _ d =>
    some ("*removed* ".data ++ d.kind_description ++ ": `".data ++ simplify d.short ++ "`".data)
  | .modification _ _ _ => none

def printMarkdown (cs : List (Change Definition)) : Str × Bool :=
  renderWith simplify markdownForChange cs

/-- Model of `print_api_diff` (java): parse both snapshots, diff, render.
`none` = the run aborted during parsing with nothing printed; otherwise
the printed bytes plus whether rendering ran to completion. -/
def printApiDiff (oldFiles newFiles : List (List Str)) : Option (Str × Bool) :=
  match symbolsForLibrary oldFiles, symbolsForLibrary newFiles with
  | some o, some n => some (printMarkdown (changes o n))
  | _, _ => none

end ApiDiff.Java

namespace ApiDiff.Android

def rowsFor (sig0 : Str) : List Str → Option (List (SymbolId × Str))
  | [] => some []
  | l :: ls =>
    match kindAndSignatureForDefinition (procLine l) with
    | none => none
    | some (k, sg) =>
      (rowsFor sig0 ls).map fun rest => (SymbolId.mk sig0 k sg, procLine l) :: rest

def symbolsForKlass (lines : List Str) : Option (List (SymbolId × Str)) :=
  match lines.dropLast with
  | [] => some []
  | l0 :: rest =>
    match kindAndSignatureForDefinition (procLine l0) with
    | none => none
    | some (k0, sig0) =>
      (rowsFor sig0 rest).map fun tail =>
        (SymbolId.mk sig0 k0 sig0, procLine l0) :: tail

def symbolsForLibrary (files : List (List Str)) : Option (List (SymbolId × Str)) :=
  (mapOpt symbolsForKlass files).map List.flatten

/-- The android `_changes` compares the definition strings themselves. -/
def changes (old_symbols new_symbols : List (SymbolId × Str)) : List (Change Str) :=
  changesFlat (fun a b => decide (a ≠ b)) old_symbols new_symbols

def simplify (s : Str) : Str := simplifyWith isBoundaryA s

/-- The android `_markdown_for_kind` (raises on a kind outside 1..4). -/
def kindLabel (k : Nat) : Option Str :=
  if k = Kind.KLASS then some ("class".data)
  else if k = Kind.CONSTRUCTOR then some ("constructor".data)
  else if k = Kind.FIELD then some ("field".data)
  else if k = Kind.METHOD then some ("method".data)
  else none

/-- Model of the android `_markdown_for_change` (headers show the
simplified `symbol_id.signature`; modifications render a From/To table). -/
def markdownForChange : Change Str → Option Str
  | .addition i _ =>
    (kindLabel i.kind).map fun kd =>
      "*new* ".data ++ kd ++ ": `".data ++ simplify i.signature ++ "`".data
  | .deletion i _ =>
    (kindLabel i.kind).map fun kd =>
      "*removed* ".data ++ kd ++ ": `".data ++ simplify i.signature ++ "`".data
  | .modification i od nd =>
    (kindLabel i.kind).map fun kd =>
      "*modified* ".data ++ kd ++ ": `".data ++ simplify i.signature ++ "`".data ++
        "\n\n| From: | ".data ++ simplify od ++ " |\n| To: | ".data ++ simplify nd ++ " |".data

def printMarkdown (cs : List (Change Str)) : Str × Bool :=
  renderWith simplify markdownForChange cs

def printApiDiff (oldFiles newFiles : List (List Str)) : Option (Str × Bool) :=
  match symbolsForLibrary oldFiles, symbolsForLibrary newFiles with
  | some o, some n => some (printMarkdown (changes o n))
  | _, _ => none

end ApiDiff.Android

namespace ApiDiff

/-! ### Auxiliary definitions used by the claim theorems: observation predicates, the consistency predicate, and concrete example inputs. -/

/-- A valid decomposition of the `modifiers` group: a nonempty list of
(keyword, nonempty whitespace run) repetitions. -/
def ModChain (reps : List (Str × Str)) : Prop :=
  ∀ p ∈ reps, p.1 ∈ modifierKeywords ∧ p.2 ≠ [] ∧ ∀ c ∈ p.2, isPySpace c = true

instance (reps : List (Str × Str)) : Decidable (ModChain reps) := by
  unfold ModChain
  infer_instance

def flatReps (reps : List (Str × Str)) : Str :=
  (reps.map fun p => p.1 ++ p.2).flatten

def isAdditionB {D : Type} : Change D → Bool
  | .addition _ _ => true
  | _ => false

def isDeletionB {D : Type} : Change D → Bool
  | .deletion _ _ => true
  | _ => false

def isModificationB {D : Type} : Change D → Bool
  | .modification _ _ _ => true
  | _ => false

/-- The spec's example: the old snapshot's single `Widget` file. -/
def widgetOldLines : List Str :=
  ["public class Widget \x7b".data, "public Widget();".data,
    "public void draw();".data, "\x7d".data]

/-- The spec's example: the new snapshot's `Widget` file. -/
def widgetNewLines : List Str :=
  ["public class Widget \x7b".data, "public Widget();".data,
    "public void draw(int x);".data, "public int color;".data, "\x7d".data]

def widgetBucket : List (Change Java.Definition) :=
  bucketFor
    (Java.changes ((Java.symbolsForLibrary [widgetOldLines]).getD [])
      ((Java.symbolsForLibrary [widgetNewLines]).getD []))
    ("Widget".data)

/-- A concrete report exposing the ordering flaw: raw names `a.Z` < `b.A`
but simplified names `Z` > `A`. -/
def c4Example : List (Change Java.Definition) :=
  [Change.addition (SymbolId.mk ("a.Z".data) Kind.KLASS ("a.Z".data))
    (Java.Definition.mk ("public class a.Z".data) ("a.Z".data) ("class".data)),
   Change.addition (SymbolId.mk ("b.A".data) Kind.KLASS ("b.A".data))
    (Java.Definition.mk ("public class b.A".data) ("b.A".data) ("class".data))]

/-- The changes of a report that concern one symbol identity. -/
def changesOf {D : Type} (cs : List (Change D)) (id : SymbolId) : List (Change D) :=
  cs.filter fun c => decide (c.symbolId = id)

/-- Concrete tables for the C1 witness: one identity only in the new
table, one only in the old, one persisted with differing full texts, one
persisted unchanged. -/
def c1OldTable : List (SymbolId × Java.Definition) :=
  [(SymbolId.mk ("C".data) Kind.FIELD ("y".data),
    Java.Definition.mk ("public int y".data) ("int y".data) ("field".data)),
   (SymbolId.mk ("C".data) Kind.METHOD ("m()".data),
    Java.Definition.mk ("public void m() throws A".data) ("void m()".data) ("method".data)),
   (SymbolId.mk ("C".data) Kind.CONSTRUCTOR ("C()".data),
    Java.Definition.mk ("public C()".data) ("C()".data) ("constructor".data))]

def c1NewTable : List (SymbolId × Java.Definition) :=
  [(SymbolId.mk ("C".data) Kind.FIELD ("x".data),
    Java.Definition.mk ("public int x".data) ("int x".data) ("field".data)),
   (SymbolId.mk ("C".data) Kind.METHOD ("m()".data),
    Java.Definition.mk ("public void m() throws B".data) ("void m()".data) ("method".data)),
   (SymbolId.mk ("C".data) Kind.CONSTRUCTOR ("C()".data),
    Java.Definition.mk ("public C()".data) ("C()".data) ("constructor".data))]

/-- Prop form of `consistentB`. -/
def TableConsistent {D : Type} (t : List (SymbolId × D)) : Prop :=
  ∀ (k : SymbolId) (v1 v2 : D), (k, v1) ∈ t → (k, v2) ∈ t → v1 = v2

/-- Files whose symbol identities collide with different definitions make
the pipeline's output depend on the enumeration order. -/
def c5FileA : List Str :=
  ["public class Foo \x7b".data, "public int a;".data, "\x7d".data]

def c5FileB : List Str :=
  ["public class Foo \x7b".data, "public long a;".data, "\x7d".data]

end ApiDiff

namespace ApiDiff

/-! ### Helper lemmas about the modifier machinery -/

theorem takeWhile_app_all {p : Char → Bool} {l1 l2 : Str}
    (h : ∀ x ∈ l1, p x = true) :
    (l1 ++ l2).takeWhile p = l1 ++ l2.takeWhile p := by
  induction l1 with
  | nil => simp
  | cons a l ih =>
    rw [List.cons_append, List.takeWhile_cons_of_pos (h a (by simp))]
    rw [ih fun x hx => h x (by simp [hx])]
    simp

theorem dropWhile_app_all {p : Char → Bool} {l1 l2 : Str}
    (h : ∀ x ∈ l1, p x = true) :
    (l1 ++ l2).dropWhile p = l2.dropWhile p := by
  induction l1 with
  | nil => simp
  | cons a l ih =>
    rw [List.cons_append, List.dropWhile_cons_of_pos (h a (by simp))]
    exact ih fun x hx => h x (by simp [hx])

theorem takeWhile_app_stop {p : Char → Bool} {l1 l2 : Str}
    (h : ∀ x ∈ l1, p x = true)
    (h2 : l2 = [] ∨ ∃ c cs, l2 = c :: cs ∧ p c = false) :
    (l1 ++ l2).takeWhile p = l1 := by
  rw [takeWhile_app_all h]
  rcases h2 with rfl | ⟨c, cs, rfl, hc⟩
  · simp
  · simp [List.takeWhile_cons, hc]

theorem dropWhile_app_stop {p : Char → Bool} {l1 l2 : Str}
    (h : ∀ x ∈ l1, p x = true)
    (h2 : l2 = [] ∨ ∃ c cs, l2 = c :: cs ∧ p c = false) :
    (l1 ++ l2).dropWhile p = l2 := by
  rw [dropWhile_app_all h]
  rcases h2 with rfl | ⟨c, cs, rfl, hc⟩
  · simp
  · simp [List.dropWhile_cons, hc]

theorem startsWithL_iff {p s : Str} : startsWithL p s = true ↔ p <+: s := by
  rw [startsWithL, decide_eq_true_eq, List.prefix_iff_eq_take]
  exact ⟨fun h => h.symm, fun h => h.symm⟩

theorem startsWithL_app (p r : Str) : startsWithL p (p ++ r) = true :=
  startsWithL_iff.mpr ⟨r, rfl⟩

theorem startsWithL_head_ne {p s : Str} (hp : p ≠ [])
    (h : p.head? ≠ s.head?) : startsWithL p s = false := by
  rw [Bool.eq_false_iff]
  intro hs
  rcases startsWithL_iff.mp hs with ⟨t, rfl⟩
  rcases p with _ | ⟨a, p⟩
  · exact hp rfl
  · exact h rfl

/-- Soundness of `matchOneModSplit`. -/
theorem matchOneModSplit_sound {s kw w rest : Str}
    (h : matchOneModSplit s = some (kw, w, rest)) :
    kw ∈ modifierKeywords ∧ w ≠ [] ∧ (∀ c ∈ w, isPySpace c = true) ∧
      s = kw ++ w ++ rest ∧
      (rest = [] ∨ ∃ c cs, rest = c :: cs ∧ isPySpace c = false) := by
  obtain ⟨a, ha, hfa⟩ := List.exists_of_findSome?_eq_some h
  by_cases hsw : startsWithL a s = true
  · rw [if_pos hsw] at hfa
    by_cases hw0 : (List.takeWhile isPySpace (s.drop a.length)).isEmpty = true
    · rw [if_pos hw0] at hfa; exact absurd hfa (by simp)
    · rw [if_neg hw0] at hfa
      have h1 : a = kw ∧ List.takeWhile isPySpace (s.drop a.length) = w ∧
          List.dropWhile isPySpace (s.drop a.length) = rest := by
        simpa using hfa
      obtain ⟨rfl, hw2, hrest2⟩ := h1
      refine ⟨ha, ?_, ?_, ?_, ?_⟩
      · intro hwnil
        rw [hwnil] at hw2
        rw [hw2] at hw0
        exact hw0 rfl
      · intro c hc
        exact List.mem_takeWhile_imp (hw2 ▸ hc)
      · rcases startsWithL_iff.mp hsw with ⟨t, rfl⟩
        rw [List.drop_left] at hw2 hrest2
        rw [← hw2, ← hrest2, List.append_assoc, List.takeWhile_append_dropWhile]
      · rcases hd : List.dropWhile isPySpace (s.drop a.length) with _ | ⟨c, cs⟩
        · rw [hd] at hrest2; exact Or.inl hrest2.symm
        · refine Or.inr ⟨c, cs, by rw [← hrest2, hd], ?_⟩
          have := List.head_dropWhile_not isPySpace (s.drop a.length) (by simp [hd])
          simpa [hd] using this
  · rw [if_neg hsw] at hfa; exact absurd hfa (by simp)

theorem matchOneModSplit_length {s kw w rest : Str}
    (h : matchOneModSplit s = some (kw, w, rest)) : rest.length < s.length := by
  obtain ⟨hkw, hw, _, rfl, _⟩ := matchOneModSplit_sound h
  have hkwlen : kw.length ≥ 1 := by
    rcases kw with _ | _
    · simp [modifierKeywords] at hkw
    · simp
  have hwlen : w.length ≥ 1 := by
    rcases w with _ | _
    · exact absurd rfl hw
    · simp
  simp [List.length_append]
  omega

/-- A boolean rendering of pairwise non-prefix-ness of the modifier
keywords, checked by computation. -/
theorem modifierKeywords_nonprefix :
    (modifierKeywords.all fun a => modifierKeywords.all fun b =>
      decide (a = b) || !(a.isPrefixOf b)) = true := by decide

theorem modifierKeywords_nospace :
    (modifierKeywords.all fun kw => kw.all fun c => !(isPySpace c)) = true := by decide

/-- First success wins for `findSome?` when all other entries fail. -/
theorem findSome?_eq_of_unique {α β : Type} {f : α → Option β} {l : List α}
    {a : α} {b : β} (ha : a ∈ l) (hfa : f a = some b)
    (huniq : ∀ x ∈ l, x ≠ a → f x = none) :
    l.findSome? f = some b := by
  induction l with
  | nil => cases ha
  | cons x xs ih =>
    rw [List.findSome?_cons]
    by_cases hxa : x = a
    · subst hxa; rw [hfa]
    · rw [huniq x (by simp) hxa]
      rcases List.mem_cons.mp ha with rfl | ha'
      · exact absurd rfl hxa
      · exact ih ha' fun y hy hne => huniq y (by simp [hy]) hne

/-- Completeness of `matchOneModSplit` on a well-formed repetition whose
trailing whitespace run is maximal. -/
theorem matchOneModSplit_complete {kw w rest : Str}
    (hkw : kw ∈ modifierKeywords) (hw : w ≠ [])
    (hws : ∀ c ∈ w, isPySpace c = true)
    (hrest : rest = [] ∨ ∃ c cs, rest = c :: cs ∧ isPySpace c = false) :
    matchOneModSplit (kw ++ w ++ rest) = some (kw, w, rest) := by
  have hnp : ∀ a ∈ modifierKeywords, ∀ b ∈ modifierKeywords, a ≠ b → ¬a <+: b := by
    intro a ha b hb hne hp
    have h := modifierKeywords_nonprefix
    rw [List.all_eq_true] at h
    have h2 := h a ha
    rw [List.all_eq_true] at h2
    have h3 := h2 b hb
    simp only [Bool.or_eq_true, decide_eq_true_eq, Bool.not_eq_true'] at h3
    rcases h3 with h3 | h3
    · exact hne h3
    · rw [List.isPrefixOf_iff_prefix.mpr hp] at h3; cases h3
  have hnospace : ∀ a ∈ modifierKeywords, ∀ c ∈ a, isPySpace c = false := by
    intro a ha c hc
    have h := modifierKeywords_nospace
    rw [List.all_eq_true] at h
    have h2 := h a ha
    rw [List.all_eq_true] at h2
    have h3 := h2 c hc
    simpa using h3
  apply findSome?_eq_of_unique hkw
  · rw [if_pos (by rw [List.append_assoc]; exact startsWithL_app kw (w ++ rest))]
    have hdrop : (kw ++ w ++ rest).drop kw.length = w ++ rest := by
      rw [List.append_assoc, List.drop_left]
    have htw : List.takeWhile isPySpace (w ++ rest) = w :=
      takeWhile_app_stop (fun c hc => hws c hc) hrest
    have hdw : List.dropWhile isPySpace (w ++ rest) = rest :=
      dropWhile_app_stop (fun c hc => hws c hc) hrest
    simp only [hdrop, htw, hdw]
    rw [if_neg (by simpa using hw)]
  · intro x hx hne
    have hsw : startsWithL x (kw ++ w ++ rest) = false := by
      rw [Bool.eq_false_iff]
      intro hs
      have hxp : x <+: kw ++ w ++ rest := startsWithL_iff.mp hs
      have hkp : kw <+: kw ++ w ++ rest := ⟨w ++ rest, by rw [List.append_assoc]⟩
      rcases List.prefix_or_prefix_of_prefix hxp hkp with hpk | hpk
      · exact hnp x hx kw hkw hne hpk
      · rcases hpk with ⟨t, rfl⟩
        rcases t with _ | ⟨c, t'⟩
        · exact hne (by simp)
        · have ht : c :: t' <+: w ++ rest := by
            rw [List.append_assoc] at hxp
            exact (List.prefix_append_right_inj kw).mp hxp
          rcases ht with ⟨u, hu⟩
          rcases w with _ | ⟨wc, w'⟩
          · exact hw rfl
          · have hc : wc = c := by
              have := congrArg List.head? hu
              simpa using this.symm
            have hcs : isPySpace c = true := hc ▸ hws wc (by simp)
            have : isPySpace c = false :=
              hnospace (kw ++ c :: t') hx c (by simp)
            rw [this] at hcs; cases hcs
    rw [hsw]
    simp

theorem restCandidatesF_congr :
    ∀ (f g : Nat) (s : Str), s.length < f → s.length < g →
      restCandidatesF f s = restCandidatesF g s := by
  intro f
  induction f with
  | zero => intro g s hf _; omega
  | succ f ih =>
    intro g s hf hg
    rcases g with _ | g
    · omega
    rw [restCandidatesF, restCandidatesF]
    rcases hm : matchOneModSplit s with _ | ⟨⟨kw, w, rest⟩⟩
    · rfl
    · show restCandidatesF f rest ++ wsBacktracks w rest =
        restCandidatesF g rest ++ wsBacktracks w rest
      have hlen := matchOneModSplit_length hm
      rw [ih f rest (by omega) (by omega)]
      rw [ih g rest (by omega) (by omega)]

theorem restCandidates_unfold {s kw w rest : Str}
    (h : matchOneModSplit s = some (kw, w, rest)) :
    restCandidates s = restCandidates rest ++ wsBacktracks w rest := by
  have hlen := matchOneModSplit_length h
  rw [restCandidates, restCandidatesF, h]
  show restCandidatesF s.length rest ++ wsBacktracks w rest =
    restCandidates rest ++ wsBacktracks w rest
  rw [restCandidatesF_congr s.length (rest.length + 1) rest (by omega) (by omega)]
  rfl

theorem restCandidates_none {s : Str} (h : matchOneModSplit s = none) :
    restCandidates s = [] := by
  rw [restCandidates, restCandidatesF, h]

/-- On `modifiers ++ r` where `r` opens with a non-whitespace character at
which no modifier repetition matches, the first backtracking candidate the
engine offers to the rest of the pattern is exactly `r`. -/
theorem restCandidates_chain :
    ∀ (reps : List (Str × Str)) (r : Str), reps ≠ [] → ModChain reps →
      (∃ c cs, r = c :: cs ∧ isPySpace c = false) →
      matchOneModSplit r = none →
      ∃ junk, restCandidates (flatReps reps ++ r) = r :: junk := by
  intro reps
  induction reps with
  | nil => intro r h; exact absurd rfl h
  | cons p reps ih =>
    intro r _ hch hr hnone
    obtain ⟨hkw, hwne, hws⟩ := hch p (by simp)
    rcases reps with _ | ⟨q, reps'⟩
    · -- single repetition
      have hflat : flatReps [p] ++ r = p.1 ++ p.2 ++ r := by
        simp [flatReps, List.append_assoc]
      obtain ⟨c, cs, rfl, hc⟩ := hr
      have hm : matchOneModSplit (p.1 ++ p.2 ++ (c :: cs)) =
          some (p.1, p.2, c :: cs) :=
        matchOneModSplit_complete hkw hwne hws (Or.inr ⟨c, cs, rfl, hc⟩)
      rw [hflat, restCandidates_unfold hm, restCandidates_none hnone]
      rcases hw : p.2 with _ | ⟨wc, w'⟩
      · exact absurd hw hwne
      · refine ⟨(wsBacktracks (wc :: w') (c :: cs)).tail, ?_⟩
        rw [List.nil_append, wsBacktracks]
        rw [List.length_cons, List.range_succ_eq_map]
        simp
    · -- at least two repetitions: the tail chain opens with a keyword,
      -- a non-whitespace character, so the repetition's run is maximal
      obtain ⟨hkwq, hwneq, _⟩ := hch q (by simp)
      have hqne : q.1 ≠ [] := by
        intro hnil
        rw [hnil] at hkwq
        simp [modifierKeywords] at hkwq
      obtain ⟨k0, ks, hk0⟩ : ∃ k0 ks, q.1 = k0 :: ks := by
        rcases hq : q.1 with _ | ⟨k0, ks⟩
        · exact absurd hq hqne
        · exact ⟨k0, ks, rfl⟩
      have hk0ns : isPySpace k0 = false := by
        have h := modifierKeywords_nospace
        rw [List.all_eq_true] at h
        have h2 := h q.1 hkwq
        rw [List.all_eq_true] at h2
        have h3 := h2 k0 (by rw [hk0]; simp)
        simpa using h3
      have htail : flatReps (q :: reps') ++ r = k0 :: (ks ++ q.2 ++ flatReps reps' ++ r) := by
        simp [flatReps, hk0, List.append_assoc]
      obtain ⟨junk, hjunk⟩ := ih r (by simp) (fun x hx => hch x (by simp [hx])) hr hnone
      have hflat : flatReps (p :: q :: reps') ++ r =
          p.1 ++ p.2 ++ (flatReps (q :: reps') ++ r) := by
        simp [flatReps, List.append_assoc]
      have hm : matchOneModSplit (p.1 ++ p.2 ++ (flatReps (q :: reps') ++ r)) =
          some (p.1, p.2, flatReps (q :: reps') ++ r) := by
        apply matchOneModSplit_complete hkw hwne hws
        rw [htail]
        exact Or.inr ⟨k0, _, rfl, hk0ns⟩
      rw [hflat, restCandidates_unfold hm, hjunk]
      exact ⟨junk ++ wsBacktracks p.2 (flatReps (q :: reps') ++ r), by simp⟩

theorem mem_modifierKeywords_ne_nil {a : Str} (h : a ∈ modifierKeywords) :
    a ≠ [] := by
  have hb : (modifierKeywords.all fun a => !a.isEmpty) = true := by decide
  rw [List.all_eq_true] at hb
  have h2 := hb a h
  simpa using h2

theorem modKw_head_not_cie {a : Str} (h : a ∈ modifierKeywords) :
    a.head? ≠ some 'c' ∧ a.head? ≠ some 'i' ∧ a.head? ≠ some 'e' := by
  have hb : (modifierKeywords.all fun a =>
      decide (a.head? ≠ some 'c') && decide (a.head? ≠ some 'i') &&
        decide (a.head? ≠ some 'e')) = true := by decide
  rw [List.all_eq_true] at hb
  have h2 := hb a h
  simp only [Bool.and_eq_true, decide_eq_true_eq] at h2
  exact ⟨h2.1.1, h2.1.2, h2.2⟩

/-- No modifier repetition can match at a position opening with `c`, `i`
or `e` (the first letters of `class` / `interface` / `enum`). -/
theorem matchOneModSplit_none_of_cie {r : Str} {c : Char}
    (hr : r.head? = some c) (hc : c = 'c' ∨ c = 'i' ∨ c = 'e') :
    matchOneModSplit r = none := by
  rw [matchOneModSplit]
  rw [List.findSome?_eq_none]
  intro x hx
  have hne := mem_modifierKeywords_ne_nil hx
  obtain ⟨h1, h2, h3⟩ := modKw_head_not_cie hx
  have hsw : startsWithL x r = false := by
    apply startsWithL_head_ne hne
    rw [hr]
    rcases hc with rfl | rfl | rfl
    · exact h1
    · exact h2
    · exact h3
  rw [hsw]
  simp

theorem mem_klassKeywords_ne_nil {a : Str} (h : a ∈ klassKeywords) : a ≠ [] := by
  have hb : (klassKeywords.all fun a => !a.isEmpty) = true := by decide
  rw [List.all_eq_true] at hb
  have h2 := hb a h
  simpa using h2

theorem klassKeywords_head_ne {a b : Str} (ha : a ∈ klassKeywords)
    (hb : b ∈ klassKeywords) (hne : a ≠ b) : a.head? ≠ b.head? := by
  have hf : (klassKeywords.all fun a => klassKeywords.all fun b =>
      decide (a = b) || decide (a.head? ≠ b.head?)) = true := by decide
  rw [List.all_eq_true] at hf
  have h2 := hf a ha
  rw [List.all_eq_true] at h2
  have h3 := h2 b hb
  simp only [Bool.or_eq_true, decide_eq_true_eq] at h3
  rcases h3 with h3 | h3
  · exact absurd h3 hne
  · exact h3

/-- Computation of the java Klass rest pattern
`(class|interface|enum)\s+(\S+)(.*)` on a string of type-declaration
shape: keyword, whitespace, identifier, optional clause (empty or opening
with whitespace).  Group 3 is the clause up to the first newline. -/
theorem matchKlassRest_shape {kwT ws ident cl : Str}
    (hkw : kwT ∈ klassKeywords) (hws : ws ≠ [])
    (hwsall : ∀ c ∈ ws, isPySpace c = true)
    (hid : ident ≠ []) (hidall : ∀ c ∈ ident, isPySpace c = false)
    (hcl : cl = [] ∨ ∃ c cs, cl = c :: cs ∧ isPySpace c = true) :
    matchKlassRest (kwT ++ ws ++ ident ++ cl) =
      some (kwT, ident, cl.takeWhile isDotCh) := by
  obtain ⟨i0, irest, rfl⟩ : ∃ i0 irest, ident = i0 :: irest := by
    rcases ident with _ | ⟨i0, irest⟩
    · exact absurd rfl hid
    · exact ⟨i0, irest, rfl⟩
  have hidstop : ∀ l2 : Str, (i0 :: irest) ++ l2 = [] ∨
      ∃ c cs, (i0 :: irest) ++ l2 = c :: cs ∧ isPySpace c = false := by
    intro l2
    exact Or.inr ⟨i0, irest ++ l2, by simp, hidall i0 (by simp)⟩
  have hclstop : cl = [] ∨ ∃ c cs, cl = c :: cs ∧ (!isPySpace c) = false := by
    rcases hcl with rfl | ⟨c, cs, rfl, hc⟩
    · exact Or.inl rfl
    · exact Or.inr ⟨c, cs, rfl, by simp [hc]⟩
  apply findSome?_eq_of_unique hkw
  · have hstart : startsWithL kwT (kwT ++ ws ++ (i0 :: irest) ++ cl) = true := by
      rw [List.append_assoc, List.append_assoc]
      exact startsWithL_app kwT (ws ++ ((i0 :: irest) ++ cl))
    rw [if_pos hstart]
    have hdrop : (kwT ++ ws ++ (i0 :: irest) ++ cl).drop kwT.length =
        ws ++ ((i0 :: irest) ++ cl) := by
      rw [List.append_assoc, List.append_assoc, List.drop_left]
    have htw : List.takeWhile isPySpace (ws ++ ((i0 :: irest) ++ cl)) = ws :=
      takeWhile_app_stop hwsall (hidstop cl)
    have hdw : List.dropWhile isPySpace (ws ++ ((i0 :: irest) ++ cl)) =
        (i0 :: irest) ++ cl :=
      dropWhile_app_stop hwsall (hidstop cl)
    have hsig : List.takeWhile (fun c => !isPySpace c) ((i0 :: irest) ++ cl) =
        i0 :: irest :=
      takeWhile_app_stop (fun c hc => by simp [hidall c hc]) hclstop
    have hsigd : List.dropWhile (fun c => !isPySpace c) ((i0 :: irest) ++ cl) = cl :=
      dropWhile_app_stop (fun c hc => by simp [hidall c hc]) hclstop
    simp only [hdrop, htw, hdw, hsig, hsigd]
    rw [if_neg (by simpa using hws)]
    rw [if_neg (by simp)]
  · intro x hx hne
    have hsw : startsWithL x (kwT ++ ws ++ (i0 :: irest) ++ cl) = false := by
      apply startsWithL_head_ne (mem_klassKeywords_ne_nil hx)
      have hkne := mem_klassKeywords_ne_nil hkw
      obtain ⟨k0, ks, rfl⟩ : ∃ k0 ks, kwT = k0 :: ks := by
        rcases kwT with _ | ⟨k0, ks⟩
        · exact absurd rfl hkne
        · exact ⟨k0, ks, rfl⟩
      have := klassKeywords_head_ne hx hkw hne
      simpa using this
    rw [hsw]
    simp

/-- The android Klass rest pattern `class\s+(\S+).*` on the same shape
(keyword fixed to `class`). -/
theorem matchKlassRestA_shape {ws ident cl : Str}
    (hws : ws ≠ []) (hwsall : ∀ c ∈ ws, isPySpace c = true)
    (hid : ident ≠ []) (hidall : ∀ c ∈ ident, isPySpace c = false)
    (hcl : cl = [] ∨ ∃ c cs, cl = c :: cs ∧ isPySpace c = true) :
    matchKlassRestA ("class".data ++ ws ++ ident ++ cl) = some ident := by
  obtain ⟨i0, irest, rfl⟩ : ∃ i0 irest, ident = i0 :: irest := by
    rcases ident with _ | ⟨i0, irest⟩
    · exact absurd rfl hid
    · exact ⟨i0, irest, rfl⟩
  have hidstop : ((i0 :: irest) : Str) ++ cl = [] ∨
      ∃ c cs, (i0 :: irest) ++ cl = c :: cs ∧ isPySpace c = false :=
    Or.inr ⟨i0, irest ++ cl, by simp, hidall i0 (by simp)⟩
  have hclstop : cl = [] ∨ ∃ c cs, cl = c :: cs ∧ (!isPySpace c) = false := by
    rcases hcl with rfl | ⟨c, cs, rfl, hc⟩
    · exact Or.inl rfl
    · exact Or.inr ⟨c, cs, rfl, by simp [hc]⟩
  rw [matchKlassRestA]
  have hstart : startsWithL ("class".data) ("class".data ++ ws ++ (i0 :: irest) ++ cl) = true := by
    rw [List.append_assoc, List.append_assoc]
    exact startsWithL_app ("class".data) (ws ++ ((i0 :: irest) ++ cl))
  rw [if_pos hstart]
  have hdrop : ("class".data ++ ws ++ (i0 :: irest) ++ cl).drop 5 =
      ws ++ ((i0 :: irest) ++ cl) := by
    rw [List.append_assoc, List.append_assoc]
    exact List.drop_left ("class".data) _
  have htw : List.takeWhile isPySpace (ws ++ ((i0 :: irest) ++ cl)) = ws :=
    takeWhile_app_stop hwsall hidstop
  have hdw : List.dropWhile isPySpace (ws ++ ((i0 :: irest) ++ cl)) =
      (i0 :: irest) ++ cl :=
    dropWhile_app_stop hwsall hidstop
  have hsig : List.takeWhile (fun c => !isPySpace c) ((i0 :: irest) ++ cl) =
      i0 :: irest :=
    takeWhile_app_stop (fun c hc => by simp [hidall c hc]) hclstop
  simp only [hdrop, htw, hdw, hsig]
  rw [if_neg (by simpa using hws)]
  rw [if_neg (by simp)]

theorem klassKeywords_shape {kwT : Str} (h : kwT ∈ klassKeywords) :
    ∃ k0 ks, kwT = k0 :: ks ∧ (k0 = 'c' ∨ k0 = 'i' ∨ k0 = 'e') ∧
      isPySpace k0 = false := by
  rcases (by simpa [klassKeywords] using h :
      kwT = "class".data ∨ kwT = "interface".data ∨ kwT = "enum".data) with rfl | rfl | rfl
  · exact ⟨'c', "lass".data, by decide, by decide, by decide⟩
  · exact ⟨'i', "nterface".data, by decide, by decide, by decide⟩
  · exact ⟨'e', "num".data, by decide, by decide, by decide⟩

/-- On a java type-declaration shaped line (one or more modifier
repetitions, a `class`/`interface`/`enum` keyword, whitespace, an
identifier, an optional clause), `_parse_full_definition` classifies by
the Klass pattern, with the annotation special case keyed on the clause
(up to a newline). -/
theorem parseFullDefinition_typeShape {reps : List (Str × Str)} {kwT ws ident cl : Str}
    (hreps : reps ≠ []) (hch : ModChain reps)
    (hkw : kwT ∈ klassKeywords) (hws : ws ≠ [])
    (hwsall : ∀ c ∈ ws, isPySpace c = true)
    (hid : ident ≠ []) (hidall : ∀ c ∈ ident, isPySpace c = false)
    (hcl : cl = [] ∨ ∃ c cs, cl = c :: cs ∧ isPySpace c = true) :
    Java.parseFullDefinition (flatReps reps ++ (kwT ++ ws ++ ident ++ cl)) =
      if kwT = "interface".data ∧
          cl.takeWhile isDotCh = " extends java.lang.annotation.Annotation".data
      then some (Kind.KLASS, ident, '@' :: ident, "annotation".data)
      else some (Kind.KLASS, ident, ident, kwT) := by
  obtain ⟨k0, ks, hk0, hcie, hk0ns⟩ := klassKeywords_shape hkw
  have hrhead : (kwT ++ ws ++ ident ++ cl).head? = some k0 := by
    rw [hk0]; simp
  have hnone : matchOneModSplit (kwT ++ ws ++ ident ++ cl) = none :=
    matchOneModSplit_none_of_cie hrhead hcie
  obtain ⟨junk, hcands⟩ := restCandidates_chain reps (kwT ++ ws ++ ident ++ cl)
    hreps hch ⟨k0, ks ++ ws ++ ident ++ cl, by rw [hk0]; simp, hk0ns⟩ hnone
  have hklass := matchKlassRest_shape hkw hws hwsall hid hidall hcl
  rw [Java.parseFullDefinition]
  simp only [hcands, List.findSome?_cons, hklass]

/-- On an android type-declaration shaped line (keyword `class`),
`_kind_and_signature_for_definition` returns `(Kind.KLASS, identifier)`. -/
theorem kindAndSignature_typeShape {reps : List (Str × Str)} {ws ident cl : Str}
    (hreps : reps ≠ []) (hch : ModChain reps) (hws : ws ≠ [])
    (hwsall : ∀ c ∈ ws, isPySpace c = true)
    (hid : ident ≠ []) (hidall : ∀ c ∈ ident, isPySpace c = false)
    (hcl : cl = [] ∨ ∃ c cs, cl = c :: cs ∧ isPySpace c = true) :
    Android.kindAndSignatureForDefinition
        (flatReps reps ++ ("class".data ++ ws ++ ident ++ cl)) =
      some (Kind.KLASS, ident) := by
  have hrhead : ("class".data ++ ws ++ ident ++ cl).head? = some 'c' := by simp
  have hnone : matchOneModSplit ("class".data ++ ws ++ ident ++ cl) = none :=
    matchOneModSplit_none_of_cie hrhead (Or.inl rfl)
  obtain ⟨junk, hcands⟩ := restCandidates_chain reps ("class".data ++ ws ++ ident ++ cl)
    hreps hch ⟨'c', "lass".data ++ ws ++ ident ++ cl, by simp, by decide⟩ hnone
  have hklass := matchKlassRestA_shape hws hwsall hid hidall hcl
  rw [Android.kindAndSignatureForDefinition]
  simp only [hcands, List.findSome?_cons, hklass]

/-! ### Claims C2 and C6: the type-declaration pattern -/

/-- C2, counterexample.  The claim states that a trimmed line of zero or
more modifiers, then `class`/`interface`/`enum`, then an identifier,
classifies as a TYPE in both variants.  With ZERO modifiers the java
classifier fails outright (the `modifiers` regex group uses `+`, not `*`),
and the android variant does not recognize `interface`: a modifier-led
`interface` declaration classifies as a FIELD. -/
theorem claimC2_counterexample :
    Java.parseFullDefinition ("class Widget".data) = none ∧
    Android.kindAndSignatureForDefinition ("public interface Foo".data) =
      some (Kind.FIELD, "Foo".data) ∧
    Kind.FIELD ≠ Kind.KLASS := by
  exact ⟨by decide, by decide, by decide⟩

/-- C2, amended: for every trimmed declaration line consisting of ONE OR
MORE recognized modifier keywords, then (java) one of `class`,
`interface`, `enum` — or (android) the keyword `class` only — then an
identifier, then an optional extends/implements clause, the classifier
succeeds and returns kind TYPE (`Kind.KLASS`) with signature equal to the
identifier. -/
theorem claimC2 :
    (∀ (reps : List (Str × Str)) (kwT ws ident cl : Str),
      reps ≠ [] → ModChain reps → kwT ∈ klassKeywords →
      ws ≠ [] → (∀ c ∈ ws, isPySpace c = true) →
      ident ≠ [] → (∀ c ∈ ident, isPySpace c = false) →
      (cl = [] ∨ ∃ c cs, cl = c :: cs ∧ isPySpace c = true) →
      ∃ sh kd, Java.parseFullDefinition (flatReps reps ++ (kwT ++ ws ++ ident ++ cl)) =
        some (Kind.KLASS, ident, sh, kd)) ∧
    (∀ (reps : List (Str × Str)) (ws ident cl : Str),
      reps ≠ [] → ModChain reps →
      ws ≠ [] → (∀ c ∈ ws, isPySpace c = true) →
      ident ≠ [] → (∀ c ∈ ident, isPySpace c = false) →
      (cl = [] ∨ ∃ c cs, cl = c :: cs ∧ isPySpace c = true) →
      Android.kindAndSignatureForDefinition
          (flatReps reps ++ ("class".data ++ ws ++ ident ++ cl)) =
        some (Kind.KLASS, ident)) := by
  constructor
  · intro reps kwT ws ident cl hreps hch hkw hws hwsall hid hidall hcl
    rw [parseFullDefinition_typeShape hreps hch hkw hws hwsall hid hidall hcl]
    by_cases hann : kwT = "interface".data ∧
        cl.takeWhile isDotCh = " extends java.lang.annotation.Annotation".data
    · rw [if_pos hann]; exact ⟨'@' :: ident, "annotation".data, rfl⟩
    · rw [if_neg hann]; exact ⟨ident, kwT, rfl⟩
  · intro reps ws ident cl hreps hch hws hwsall hid hidall hcl
    exact kindAndSignature_typeShape hreps hch hws hwsall hid hidall hcl

/-- Witness for C2: concrete one-modifier type declarations in both
variants. -/
theorem claimC2_witness :
    (∃ sh kd, Java.parseFullDefinition
        (flatReps [("public".data, [' '])] ++
          ("enum".data ++ [' '] ++ "Color".data ++ [])) =
      some (Kind.KLASS, "Color".data, sh, kd)) ∧
    Android.kindAndSignatureForDefinition
        (flatReps [("public".data, [' '])] ++
          ("class".data ++ [' '] ++ "Foo".data ++ " extends Bar".data)) =
      some (Kind.KLASS, "Foo".data) := by
  constructor
  · exact claimC2.1 [("public".data, [' '])] ("enum".data) [' '] ("Color".data) []
      (by decide) (by decide) (by decide) (by decide) (by decide) (by decide)
      (by decide) (Or.inl rfl)
  · exact claimC2.2 [("public".data, [' '])] [' '] ("Foo".data) (" extends Bar".data)
      (by decide) (by decide) (by decide) (by decide) (by decide) (by decide)
      (Or.inr ⟨' ', "extends Bar".data, by decide, by decide⟩)

/-- C6: in the java variant, a type declaration with keyword `interface`
whose clause is exactly " extends java.lang.annotation.Annotation" keeps
kind TYPE and signature = identifier but gets kind label "annotation" and
short display `@identifier`; with any other (newline-free) clause, the
kind label is the keyword itself and the short display is the bare
identifier. -/
theorem claimC6 :
    (∀ (reps : List (Str × Str)) (ws ident : Str),
      reps ≠ [] → ModChain reps →
      ws ≠ [] → (∀ c ∈ ws, isPySpace c = true) →
      ident ≠ [] → (∀ c ∈ ident, isPySpace c = false) →
      Java.parseFullDefinition (flatReps reps ++ ("interface".data ++ ws ++ ident ++
          " extends java.lang.annotation.Annotation".data)) =
        some (Kind.KLASS, ident, '@' :: ident, "annotation".data)) ∧
    (∀ (reps : List (Str × Str)) (kwT ws ident cl : Str),
      reps ≠ [] → ModChain reps → kwT ∈ klassKeywords →
      ws ≠ [] → (∀ c ∈ ws, isPySpace c = true) →
      ident ≠ [] → (∀ c ∈ ident, isPySpace c = false) →
      (cl = [] ∨ ∃ c cs, cl = c :: cs ∧ isPySpace c = true) →
      (∀ c ∈ cl, isDotCh c = true) →
      ¬(kwT = "interface".data ∧
          cl = " extends java.lang.annotation.Annotation".data) →
      Java.parseFullDefinition (flatReps reps ++ (kwT ++ ws ++ ident ++ cl)) =
        some (Kind.KLASS, ident, ident, kwT)) := by
  constructor
  · intro reps ws ident hreps hch hws hwsall hid hidall
    rw [parseFullDefinition_typeShape hreps hch (by decide) hws hwsall hid hidall
      (Or.inr ⟨' ', "extends java.lang.annotation.Annotation".data, by decide, by decide⟩)]
    rw [if_pos ⟨rfl, by decide⟩]
  · intro reps kwT ws ident cl hreps hch hkw hws hwsall hid hidall hcl hdot hne
    rw [parseFullDefinition_typeShape hreps hch hkw hws hwsall hid hidall hcl]
    have htw : cl.takeWhile isDotCh = cl := List.takeWhile_eq_self_iff.mpr hdot
    rw [if_neg (by rw [htw]; exact hne)]

/-- Witness for C6: a concrete annotation declaration and a concrete
plain-interface declaration. -/
theorem claimC6_witness :
    Java.parseFullDefinition (flatReps [("public".data, [' '])] ++
        ("interface".data ++ [' '] ++ "Anno".data ++
          " extends java.lang.annotation.Annotation".data)) =
      some (Kind.KLASS, "Anno".data, '@' :: "Anno".data, "annotation".data) ∧
    Java.parseFullDefinition (flatReps [("public".data, [' '])] ++
        ("interface".data ++ [' '] ++ "Iface".data ++ " extends Base".data)) =
      some (Kind.KLASS, "Iface".data, "Iface".data, "interface".data) := by
  constructor
  · exact claimC6.1 [("public".data, [' '])] [' '] ("Anno".data)
      (by decide) (by decide) (by decide) (by decide) (by decide) (by decide)
  · exact claimC6.2 [("public".data, [' '])] ("interface".data) [' '] ("Iface".data)
      (" extends Base".data)
      (by decide) (by decide) (by decide) (by decide) (by decide) (by decide)
      (by decide) (Or.inr ⟨' ', "extends Base".data, by decide, by decide⟩)
      (by decide) (by decide)

/-! ### Claim C8: diffing a table against itself -/

theorem changesFlat_self {D : Type} [Inhabited D] (differ : D → D → Bool)
    (hdiff : ∀ d, differ d d = false) (t : List (SymbolId × D)) :
    changesFlat differ t t = [] := by
  unfold changesFlat
  have h1 : (keysOf t).filter (fun k => decide (k ∉ keysOf t)) = [] := by
    rw [List.filter_eq_nil_iff]
    intro a ha
    simp [ha]
  have h2 : List.filter (fun k => differ (getD t k) (getD t k))
      (List.insertionSort symbolIdLe
        ((keysOf t).filter fun k => decide (k ∈ keysOf t))) = [] := by
    rw [List.filter_eq_nil_iff]
    intro a _
    simp [hdiff]
  simp only [h1, h2]
  simp

/-- C8: diffing a symbol table against itself produces no change at all —
the flat change list is empty and so is every per-class bucket of the
report — in both variants. -/
theorem claimC8 :
    (∀ t : List (SymbolId × Java.Definition),
      Java.changes t t = [] ∧ ∀ k, bucketFor (Java.changes t t) k = []) ∧
    (∀ t : List (SymbolId × Str),
      Android.changes t t = [] ∧ ∀ k, bucketFor (Android.changes t t) k = []) := by
  constructor
  · intro t
    have h : Java.changes t t = [] :=
      changesFlat_self _ (fun d => by simp) t
    exact ⟨h, fun k => by rw [bucketFor, h]; rfl⟩
  · intro t
    have h : Android.changes t t = [] :=
      changesFlat_self _ (fun d => by simp) t
    exact ⟨h, fun k => by rw [bucketFor, h]; rfl⟩

/-! ### Claim C7: the name simplifier -/

theorem mem_suffixAfterLast {d : Char} {t : Str} {x : Char}
    (h : x ∈ suffixAfterLast d t) : x ∈ t := by
  rw [suffixAfterLast, List.mem_reverse] at h
  have := (List.takeWhile_sublist (fun c => c ≠ d)).subset h
  rwa [List.mem_reverse] at this

theorem not_mem_suffixAfterLast (d : Char) (t : Str) :
    d ∉ suffixAfterLast d t := by
  intro h
  rw [suffixAfterLast, List.mem_reverse] at h
  have := List.mem_takeWhile_imp h
  simp at this

theorem suffixAfterLast_eq_self {d : Char} {t : Str} (h : d ∉ t) :
    suffixAfterLast d t = t := by
  rw [suffixAfterLast, List.takeWhile_eq_self_iff.mpr, List.reverse_reverse]
  intro x hx
  rw [List.mem_reverse] at hx
  simp only [decide_eq_true_eq]
  intro hxd
  rw [hxd] at hx
  exact h hx

theorem mem_simplifyToken {t : Str} {x : Char} (h : x ∈ simplifyToken t) :
    x ∈ t :=
  mem_suffixAfterLast (mem_suffixAfterLast h)

theorem simplifyToken_idem (t : Str) :
    simplifyToken (simplifyToken t) = simplifyToken t := by
  have hdot : '.' ∉ simplifyToken t := by
    intro h
    exact not_mem_suffixAfterLast '.' t (mem_suffixAfterLast h)
  have hdol : '$' ∉ simplifyToken t := not_mem_suffixAfterLast '$' _
  rw [simplifyToken, suffixAfterLast_eq_self hdot, suffixAfterLast_eq_self hdol]

theorem length_dropWhile_le' (p : Char → Bool) (s : Str) :
    (s.dropWhile p).length ≤ s.length :=
  (List.dropWhile_sublist p).length_le

theorem simplifyF_congr (isB : Char → Bool) :
    ∀ (f g : Nat) (s : Str), s.length < f → s.length < g →
      simplifyF isB f s = simplifyF isB g s := by
  intro f
  induction f with
  | zero => intro g s hf _; omega
  | succ f ih =>
    intro g s hf hg
    rcases g with _ | g
    · omega
    rw [simplifyF, simplifyF]
    rcases hd : s.dropWhile (fun c => !isB c) with _ | ⟨b, r⟩
    · rfl
    · have hlen : r.length < s.length := by
        have h1 := length_dropWhile_le' (fun c => !isB c) s
        rw [hd] at h1
        simp at h1
        omega
      show simplifyToken (s.takeWhile fun c => !isB c) ++ b :: simplifyF isB f r =
        simplifyToken (s.takeWhile fun c => !isB c) ++ b :: simplifyF isB g r
      rw [ih g r (by omega) (by omega)]

theorem simplifyWith_of_dropWhile_nil {isB : Char → Bool} {s : Str}
    (h : s.dropWhile (fun c => !isB c) = []) :
    simplifyWith isB s = simplifyToken (s.takeWhile fun c => !isB c) := by
  rw [simplifyWith, simplifyF, h]

theorem simplifyWith_of_dropWhile_cons {isB : Char → Bool} {s : Str} {b : Char} {r : Str}
    (h : s.dropWhile (fun c => !isB c) = b :: r) :
    simplifyWith isB s =
      simplifyToken (s.takeWhile fun c => !isB c) ++ b :: simplifyWith isB r := by
  have hlen : r.length < s.length := by
    have h1 := length_dropWhile_le' (fun c => !isB c) s
    rw [h] at h1
    simp at h1
    omega
  rw [simplifyWith, simplifyF, h]
  show simplifyToken (s.takeWhile fun c => !isB c) ++ b :: simplifyF isB s.length r =
    simplifyToken (s.takeWhile fun c => !isB c) ++ b :: simplifyWith isB r
  rw [simplifyF_congr isB s.length (r.length + 1) r (by omega) (by omega)]
  rfl

theorem toksF_congr (isB : Char → Bool) :
    ∀ (f g : Nat) (s : Str), s.length < f → s.length < g →
      toksF isB f s = toksF isB g s := by
  intro f
  induction f with
  | zero => intro g s hf _; omega
  | succ f ih =>
    intro g s hf hg
    rcases g with _ | g
    · omega
    rw [toksF, toksF]
    rcases hd : s.dropWhile (fun c => !isB c) with _ | ⟨b, r⟩
    · rfl
    · have hlen : r.length < s.length := by
        have h1 := length_dropWhile_le' (fun c => !isB c) s
        rw [hd] at h1
        simp at h1
        omega
      show (s.takeWhile fun c => !isB c) :: toksF isB f r =
        (s.takeWhile fun c => !isB c) :: toksF isB g r
      rw [ih g r (by omega) (by omega)]

theorem bndsF_congr (isB : Char → Bool) :
    ∀ (f g : Nat) (s : Str), s.length < f → s.length < g →
      bndsF isB f s = bndsF isB g s := by
  intro f
  induction f with
  | zero => intro g s hf _; omega
  | succ f ih =>
    intro g s hf hg
    rcases g with _ | g
    · omega
    rw [bndsF, bndsF]
    rcases hd : s.dropWhile (fun c => !isB c) with _ | ⟨b, r⟩
    · rfl
    · have hlen : r.length < s.length := by
        have h1 := length_dropWhile_le' (fun c => !isB c) s
        rw [hd] at h1
        simp at h1
        omega
      show b :: bndsF isB f r = b :: bndsF isB g r
      rw [ih g r (by omega) (by omega)]

theorem toksWith_of_dropWhile_nil {isB : Char → Bool} {s : Str}
    (h : s.dropWhile (fun c => !isB c) = []) :
    toksWith isB s = [s.takeWhile fun c => !isB c] := by
  rw [toksWith, toksF, h]

theorem toksWith_of_dropWhile_cons {isB : Char → Bool} {s : Str} {b : Char} {r : Str}
    (h : s.dropWhile (fun c => !isB c) = b :: r) :
    toksWith isB s = (s.takeWhile fun c => !isB c) :: toksWith isB r := by
  have hlen : r.length < s.length := by
    have h1 := length_dropWhile_le' (fun c => !isB c) s
    rw [h] at h1
    simp at h1
    omega
  rw [toksWith, toksF, h]
  show (s.takeWhile fun c => !isB c) :: toksF isB s.length r =
    (s.takeWhile fun c => !isB c) :: toksWith isB r
  rw [toksF_congr isB s.length (r.length + 1) r (by omega) (by omega)]
  rfl

theorem bndsWith_of_dropWhile_nil {isB : Char → Bool} {s : Str}
    (h : s.dropWhile (fun c => !isB c) = []) :
    bndsWith isB s = [] := by
  rw [bndsWith, bndsF, h]

theorem bndsWith_of_dropWhile_cons {isB : Char → Bool} {s : Str} {b : Char} {r : Str}
    (h : s.dropWhile (fun c => !isB c) = b :: r) :
    bndsWith isB s = b :: bndsWith isB r := by
  have hlen : r.length < s.length := by
    have h1 := length_dropWhile_le' (fun c => !isB c) s
    rw [h] at h1
    simp at h1
    omega
  rw [bndsWith, bndsF, h]
  show b :: bndsF isB s.length r = b :: bndsWith isB r
  rw [bndsF_congr isB s.length (r.length + 1) r (by omega) (by omega)]
  rfl

/-- The output of `simplifyToken` on a boundary-free run is boundary-free. -/
theorem simplifyToken_boundary_free {isB : Char → Bool} {s : Str} :
    ∀ x ∈ simplifyToken (s.takeWhile fun c => !isB c), (!isB x) = true := by
  intro x hx
  have h2 := List.mem_takeWhile_imp (mem_simplifyToken hx)
  simpa using h2

/-- Decomposition: simplifying a string that opens with a boundary-free
run, then a boundary character, then a rest. -/
theorem takeWhile_simplified {isB : Char → Bool} {t r2 : Str} {b : Char}
    (ht : ∀ x ∈ t, (!isB x) = true) (hb : isB b = true) :
    (t ++ b :: r2).takeWhile (fun c => !isB c) = t :=
  takeWhile_app_stop ht (Or.inr ⟨b, r2, rfl, by simp [hb]⟩)

theorem dropWhile_simplified {isB : Char → Bool} {t r2 : Str} {b : Char}
    (ht : ∀ x ∈ t, (!isB x) = true) (hb : isB b = true) :
    (t ++ b :: r2).dropWhile (fun c => !isB c) = b :: r2 :=
  dropWhile_app_stop ht (Or.inr ⟨b, r2, rfl, by simp [hb]⟩)

/-- Idempotence of the simplifier, by strong induction via an explicit
length bound. -/
theorem simplifyWith_idem_aux (isB : Char → Bool) :
    ∀ (n : Nat) (s : Str), s.length ≤ n →
      simplifyWith isB (simplifyWith isB s) = simplifyWith isB s := by
  intro n
  induction n with
  | zero =>
    intro s hs
    have hnil : s = [] := List.length_eq_zero.mp (by omega)
    subst hnil
    rfl
  | succ n ih =>
    intro s hs
    have htokfree := @simplifyToken_boundary_free isB s
    rcases hd : s.dropWhile (fun c => !isB c) with _ | ⟨b, r⟩
    · rw [simplifyWith_of_dropWhile_nil hd]
      have hfree : ∀ x ∈ simplifyToken (s.takeWhile fun c => !isB c), (!isB x) = true :=
        htokfree
      have hd2 : (simplifyToken (s.takeWhile fun c => !isB c)).dropWhile
          (fun c => !isB c) = [] :=
        List.dropWhile_eq_nil_iff.mpr hfree
      rw [simplifyWith_of_dropWhile_nil hd2]
      rw [List.takeWhile_eq_self_iff.mpr hfree]
      exact simplifyToken_idem _
    · have hb : isB b = true := by
        have hne : s.dropWhile (fun c => !isB c) ≠ [] := by simp [hd]
        have h1 := List.head_dropWhile_not (fun c => !isB c) s hne
        have h2 : (s.dropWhile fun c => !isB c).head hne = b := by simp [hd]
        rw [h2] at h1
        simpa using h1
      have hlen : r.length ≤ n := by
        have h1 := length_dropWhile_le' (fun c => !isB c) s
        rw [hd] at h1
        simp at h1
        omega
      rw [simplifyWith_of_dropWhile_cons hd]
      have hd2 : (simplifyToken (s.takeWhile fun c => !isB c) ++
          b :: simplifyWith isB r).dropWhile (fun c => !isB c) =
          b :: simplifyWith isB r :=
        dropWhile_simplified htokfree hb
      rw [simplifyWith_of_dropWhile_cons hd2]
      rw [takeWhile_simplified htokfree hb]
      rw [simplifyToken_idem, ih r hlen]

theorem bnds_simplifyWith_aux (isB : Char → Bool) :
    ∀ (n : Nat) (s : Str), s.length ≤ n →
      bndsWith isB (simplifyWith isB s) = bndsWith isB s := by
  intro n
  induction n with
  | zero =>
    intro s hs
    have hnil : s = [] := List.length_eq_zero.mp (by omega)
    subst hnil
    rfl
  | succ n ih =>
    intro s hs
    have htokfree := @simplifyToken_boundary_free isB s
    rcases hd : s.dropWhile (fun c => !isB c) with _ | ⟨b, r⟩
    · rw [simplifyWith_of_dropWhile_nil hd, bndsWith_of_dropWhile_nil hd]
      exact bndsWith_of_dropWhile_nil (List.dropWhile_eq_nil_iff.mpr htokfree)
    · have hb : isB b = true := by
        have hne : s.dropWhile (fun c => !isB c) ≠ [] := by simp [hd]
        have h1 := List.head_dropWhile_not (fun c => !isB c) s hne
        have h2 : (s.dropWhile fun c => !isB c).head hne = b := by simp [hd]
        rw [h2] at h1
        simpa using h1
      have hlen : r.length ≤ n := by
        have h1 := length_dropWhile_le' (fun c => !isB c) s
        rw [hd] at h1
        simp at h1
        omega
      rw [simplifyWith_of_dropWhile_cons hd]
      rw [bndsWith_of_dropWhile_cons (dropWhile_simplified htokfree hb)]
      rw [bndsWith_of_dropWhile_cons hd]
      rw [ih r hlen]

theorem toks_simplifyWith_aux (isB : Char → Bool) :
    ∀ (n : Nat) (s : Str), s.length ≤ n →
      toksWith isB (simplifyWith isB s) = (toksWith isB s).map simplifyToken := by
  intro n
  induction n with
  | zero =>
    intro s hs
    have hnil : s = [] := List.length_eq_zero.mp (by omega)
    subst hnil
    rfl
  | succ n ih =>
    intro s hs
    have htokfree := @simplifyToken_boundary_free isB s
    rcases hd : s.dropWhile (fun c => !isB c) with _ | ⟨b, r⟩
    · rw [simplifyWith_of_dropWhile_nil hd, toksWith_of_dropWhile_nil hd]
      rw [toksWith_of_dropWhile_nil (List.dropWhile_eq_nil_iff.mpr htokfree)]
      rw [List.takeWhile_eq_self_iff.mpr htokfree]
      rfl
    · have hb : isB b = true := by
        have hne : s.dropWhile (fun c => !isB c) ≠ [] := by simp [hd]
        have h1 := List.head_dropWhile_not (fun c => !isB c) s hne
        have h2 : (s.dropWhile fun c => !isB c).head hne = b := by simp [hd]
        rw [h2] at h1
        simpa using h1
      have hlen : r.length ≤ n := by
        have h1 := length_dropWhile_le' (fun c => !isB c) s
        rw [hd] at h1
        simp at h1
        omega
      rw [simplifyWith_of_dropWhile_cons hd]
      rw [toksWith_of_dropWhile_cons (dropWhile_simplified htokfree hb)]
      rw [toksWith_of_dropWhile_cons hd]
      rw [takeWhile_simplified htokfree hb]
      rw [ih r hlen]
      rfl

/-- C7: in both variants, the name simplifier is idempotent, preserves
every boundary character in order (`bndsWith`), and transforms exactly the
boundary-free tokens in order by `simplifyToken` (strip through the last
`.`, then through the last `$`), as witnessed by `toksWith`. -/
theorem claimC7 :
    (∀ s : Str, Java.simplify (Java.simplify s) = Java.simplify s ∧
      bndsWith isBoundaryJ (Java.simplify s) = bndsWith isBoundaryJ s ∧
      toksWith isBoundaryJ (Java.simplify s) =
        (toksWith isBoundaryJ s).map simplifyToken) ∧
    (∀ s : Str, Android.simplify (Android.simplify s) = Android.simplify s ∧
      bndsWith isBoundaryA (Android.simplify s) = bndsWith isBoundaryA s ∧
      toksWith isBoundaryA (Android.simplify s) =
        (toksWith isBoundaryA s).map simplifyToken) := by
  constructor
  · intro s
    exact ⟨simplifyWith_idem_aux isBoundaryJ s.length s le_rfl,
      bnds_simplifyWith_aux isBoundaryJ s.length s le_rfl,
      toks_simplifyWith_aux isBoundaryJ s.length s le_rfl⟩
  · intro s
    exact ⟨simplifyWith_idem_aux isBoundaryA s.length s le_rfl,
      bnds_simplifyWith_aux isBoundaryA s.length s le_rfl,
      toks_simplifyWith_aux isBoundaryA s.length s le_rfl⟩

/-! ### Claim C9: the declaring class comes from the first line -/

theorem headD_of_dropLast_cons {α : Type} {lines : List α} {l0 : α} {rest : List α}
    (h : lines.dropLast = l0 :: rest) (d : α) : lines.headD d = l0 := by
  rcases lines with _ | ⟨a, t⟩
  · simp at h
  · rcases t with _ | ⟨b, t'⟩
    · simp at h
    · rw [List.dropLast_cons₂] at h
      have : a = l0 := (List.cons.injEq _ _ _ _ ▸ h).1
      rw [this]
      rfl

theorem Java.rowsForKlassOfJava {sig0 : Str} :
    ∀ {ls : List Str} {rows : List (SymbolId × Java.Definition)},
      Java.rowsFor sig0 ls = some rows → ∀ e ∈ rows, e.1.klass = sig0 := by
  intro ls
  induction ls with
  | nil =>
    intro rows h e he
    rw [Java.rowsFor] at h
    have : rows = [] := by simpa using h.symm
    rw [this] at he
    cases he
  | cons l ls ih =>
    intro rows h e he
    rw [Java.rowsFor] at h
    rcases hp : Java.parseFullDefinition (procLine l) with _ | ⟨⟨k, sg, sh, kd⟩⟩
    · rw [hp] at h; simp only [] at h; cases h
    · rw [hp] at h; simp only [] at h
      rcases hrec : Java.rowsFor sig0 ls with _ | tail
      · rw [hrec] at h; cases h
      · rw [hrec] at h
        have hrows : rows = (SymbolId.mk sig0 k sg,
            Java.Definition.mk (procLine l) sh kd) :: tail := by simpa using h.symm
        rw [hrows] at he
        rcases List.mem_cons.mp he with rfl | he'
        · rfl
        · exact ih hrec e he'

theorem Android.rowsForKlassOfAndroid {sig0 : Str} :
    ∀ {ls : List Str} {rows : List (SymbolId × Str)},
      Android.rowsFor sig0 ls = some rows → ∀ e ∈ rows, e.1.klass = sig0 := by
  intro ls
  induction ls with
  | nil =>
    intro rows h e he
    rw [Android.rowsFor] at h
    have : rows = [] := by simpa using h.symm
    rw [this] at he
    cases he
  | cons l ls ih =>
    intro rows h e he
    rw [Android.rowsFor] at h
    rcases hp : Android.kindAndSignatureForDefinition (procLine l) with _ | ⟨⟨k, sg⟩⟩
    · rw [hp] at h; simp only [] at h; cases h
    · rw [hp] at h; simp only [] at h
      rcases hrec : Android.rowsFor sig0 ls with _ | tail
      · rw [hrec] at h; cases h
      · rw [hrec] at h
        have hrows : rows = (SymbolId.mk sig0 k sg, procLine l) :: tail := by
          simpa using h.symm
        rw [hrows] at he
        rcases List.mem_cons.mp he with rfl | he'
        · rfl
        · exact ih hrec e he'

/-- C9: whenever a file parses, every symbol it contributes — including
the first line's own entry — has its `klass` equal to the signature the
classifier extracted from the file's first line, whatever kind that first
line classified to (the parser never checks that the first line is a type
declaration).  Both variants. -/
theorem claimC9 :
    (∀ (lines : List Str) (syms : List (SymbolId × Java.Definition)),
      Java.symbolsForKlass lines = some syms →
      ∀ e ∈ syms, ∃ k sh kd,
        Java.parseFullDefinition (procLine (lines.headD [])) =
          some (k, e.1.klass, sh, kd)) ∧
    (∀ (lines : List Str) (syms : List (SymbolId × Str)),
      Android.symbolsForKlass lines = some syms →
      ∀ e ∈ syms, ∃ k,
        Android.kindAndSignatureForDefinition (procLine (lines.headD [])) =
          some (k, e.1.klass)) := by
  constructor
  · intro lines syms h e he
    rw [Java.symbolsForKlass] at h
    rcases hd : lines.dropLast with _ | ⟨l0, rest⟩
    · rw [hd] at h
      have : syms = [] := by simpa using h.symm
      rw [this] at he
      cases he
    · rw [hd] at h
      simp only [] at h
      rcases hp : Java.parseFullDefinition (procLine l0) with _ | ⟨⟨k0, sig0, sh0, kd0⟩⟩
      · rw [hp] at h; simp only [] at h; cases h
      · rw [hp] at h; simp only [] at h
        rcases hrec : Java.rowsFor sig0 rest with _ | tail
        · rw [hrec] at h; cases h
        · rw [hrec] at h
          have hsyms : syms = (SymbolId.mk sig0 k0 sig0,
              Java.Definition.mk (procLine l0) sh0 kd0) :: tail := by simpa using h.symm
          rw [headD_of_dropLast_cons hd []]
          rw [hsyms] at he
          rcases List.mem_cons.mp he with rfl | he'
          · exact ⟨k0, sh0, kd0, hp⟩
          · exact ⟨k0, sh0, kd0, by rw [hp, Java.rowsForKlassOfJava hrec e he']⟩
  · intro lines syms h e he
    rw [Android.symbolsForKlass] at h
    rcases hd : lines.dropLast with _ | ⟨l0, rest⟩
    · rw [hd] at h
      have : syms = [] := by simpa using h.symm
      rw [this] at he
      cases he
    · rw [hd] at h
      simp only [] at h
      rcases hp : Android.kindAndSignatureForDefinition (procLine l0) with _ | ⟨⟨k0, sig0⟩⟩
      · rw [hp] at h; simp only [] at h; cases h
      · rw [hp] at h; simp only [] at h
        rcases hrec : Android.rowsFor sig0 rest with _ | tail
        · rw [hrec] at h; cases h
        · rw [hrec] at h
          have hsyms : syms = (SymbolId.mk sig0 k0 sig0, procLine l0) :: tail := by
            simpa using h.symm
          rw [headD_of_dropLast_cons hd []]
          rw [hsyms] at he
          rcases List.mem_cons.mp he with rfl | he'
          · exact ⟨k0, hp⟩
          · exact ⟨k0, by rw [hp, Android.rowsForKlassOfAndroid hrec e he']⟩

/-- Witness for C9: a file whose first line is a METHOD declaration; the
method's signature `m()` becomes the declaring class of the field row. -/
theorem claimC9_witness :
    ∃ k sh kd, Java.parseFullDefinition (procLine (
        (["public void m();".data, "public int f;".data, "\x7d".data]).headD [])) =
      some (k, "m()".data, sh, kd) :=
  claimC9.1 ["public void m();".data, "public int f;".data, "\x7d".data]
    [(SymbolId.mk ("m()".data) Kind.METHOD ("m()".data),
      Java.Definition.mk ("public void m()".data) ("void m()".data) ("method".data)),
     (SymbolId.mk ("m()".data) Kind.FIELD ("f".data),
      Java.Definition.mk ("public int f".data) ("int f".data) ("field".data))]
    (by decide)
    (SymbolId.mk ("m()".data) Kind.FIELD ("f".data),
      Java.Definition.mk ("public int f".data) ("int f".data) ("field".data))
    (by decide)

/-! ### Claim C10: unconditional terminator stripping and fatal empty lines -/

theorem Java.rowsFor_none_of_mem {sig0 l : Str} :
    ∀ {ls : List Str}, l ∈ ls → Java.parseFullDefinition (procLine l) = none →
      Java.rowsFor sig0 ls = none := by
  intro ls
  induction ls with
  | nil => intro h; cases h
  | cons a as ih =>
    intro hmem hnone
    rw [Java.rowsFor]
    rcases List.mem_cons.mp hmem with rfl | hmem'
    · rw [hnone]
    · rcases hp : Java.parseFullDefinition (procLine a) with _ | ⟨⟨k, sg, sh, kd⟩⟩
      · rfl
      · rw [ih hmem' hnone]
        rfl

theorem mapOpt_none_of_mem {α β : Type} {f : α → Option β} {a : α} :
    ∀ {l : List α}, a ∈ l → f a = none → mapOpt f l = none := by
  intro l
  induction l with
  | nil => intro h; cases h
  | cons x xs ih =>
    intro hmem hnone
    rw [mapOpt]
    rcases List.mem_cons.mp hmem with rfl | hmem'
    · rw [hnone]
    · rcases hx : f x with _ | b
      · rfl
      · rw [ih hmem' hnone]
        rfl

/-- C10: every non-final line is stripped, loses its final character
unconditionally — whatever that character is, with no terminator check —
and is stripped again before classification; a non-final line whose
trimmed form is empty or a single character therefore hands the empty
string to the classifier, which matches none of the four patterns, and the
whole run aborts with no symbol table and no report. -/
theorem claimC10 :
    (∀ (l l' : Str) (c : Char), stripWS l = l' ++ [c] → procLine l = stripWS l') ∧
    (∀ l : Str, (stripWS l).length ≤ 1 → procLine l = []) ∧
    Java.parseFullDefinition [] = none ∧
    (∀ (files : List (List Str)) (lines : List Str) (l : Str),
      lines ∈ files → l ∈ lines.dropLast → (stripWS l).length ≤ 1 →
      Java.symbolsForKlass lines = none ∧
      Java.symbolsForLibrary files = none ∧
      (∀ other, Java.printApiDiff files other = none ∧
        Java.printApiDiff other files = none)) := by
  have hproc : ∀ l : Str, (stripWS l).length ≤ 1 → procLine l = [] := by
    intro l hl
    rw [procLine]
    rcases hs : stripWS l with _ | ⟨c, rest⟩
    · rfl
    · rw [hs] at hl
      have hlen : rest.length = 0 := by
        simp only [List.length_cons] at hl
        omega
      rw [List.length_eq_zero.mp hlen]
      rfl
  have hnil : Java.parseFullDefinition [] = none := by decide
  refine ⟨?_, hproc, hnil, ?_⟩
  · intro l l' c h
    rw [procLine, h, List.dropLast_concat]
  · intro files lines l hfl hl hshort
    have hparse : Java.parseFullDefinition (procLine l) = none := by
      rw [hproc l hshort]
      exact hnil
    have hklass : Java.symbolsForKlass lines = none := by
      rw [Java.symbolsForKlass]
      rcases hd : lines.dropLast with _ | ⟨l0, rest⟩
      · rw [hd] at hl; cases hl
      · rw [hd] at hl
        simp only []
        rcases List.mem_cons.mp hl with rfl | hmem'
        · rw [hparse]
        · rcases hp : Java.parseFullDefinition (procLine l0) with _ | ⟨⟨k0, sig0, sh0, kd0⟩⟩
          · rfl
          · simp only []
            rw [Java.rowsFor_none_of_mem hmem' hparse]
            rfl
    have hlib : Java.symbolsForLibrary files = none := by
      rw [Java.symbolsForLibrary, mapOpt_none_of_mem hfl hklass]
      rfl
    refine ⟨hklass, hlib, fun other => ⟨?_, ?_⟩⟩
    · rw [Java.printApiDiff, hlib]
    · rw [Java.printApiDiff, hlib]
      rcases ho : Java.symbolsForLibrary other with _ | t
      · rfl
      · rfl

/-- Witness for C10: the concrete file `["public class Foo {", ";", "}"]`
has a non-final line `";"` of trimmed length 1, so parsing aborts. -/
theorem claimC10_witness :
    procLine ("x;".data) = stripWS ("x".data) ∧
    procLine ([';'] : Str) = [] ∧
    Java.symbolsForLibrary [["public class Foo \x7b".data, ";".data, "\x7d".data]] =
      none := by
  refine ⟨claimC10.1 ("x;".data) ("x".data) ';' (by decide), ?_, ?_⟩
  · exact claimC10.2.1 [';'] (by decide)
  · exact (claimC10.2.2.2 [["public class Foo \x7b".data, ";".data, "\x7d".data]]
      (["public class Foo \x7b".data, ";".data, "\x7d".data]) (";".data)
      (by decide) (by decide) (by decide)).2.1

/-! ### Claim C3: the Widget example -/

/-- C3, counterexample: on the spec's example inputs the report for
`Widget` does NOT hold one Addition, one Modification and zero Deletions.
Changing `draw()` to `draw(int x)` changes the signature — hence the
symbol identity — so it surfaces as a Deletion plus an Addition, not a
Modification. -/
theorem claimC3_counterexample :
    ¬ (widgetBucket.countP isAdditionB = 1 ∧
       widgetBucket.countP isModificationB = 1 ∧
       widgetBucket.countP isDeletionB = 0) := by
  decide

/-- C3 (amended): on the example inputs both snapshots parse, and the
report for class `Widget` consists of exactly two Additions (field
`color` and method `draw(int x)`, in identity order), one Deletion
(method `draw()`), and zero Modifications. -/
theorem claimC3 :
    Java.symbolsForLibrary [widgetOldLines] = some
      [(SymbolId.mk ("Widget".data) Kind.KLASS ("Widget".data),
        Java.Definition.mk ("public class Widget".data) ("Widget".data) ("class".data)),
       (SymbolId.mk ("Widget".data) Kind.CONSTRUCTOR ("Widget()".data),
        Java.Definition.mk ("public Widget()".data) ("Widget()".data) ("constructor".data)),
       (SymbolId.mk ("Widget".data) Kind.METHOD ("draw()".data),
        Java.Definition.mk ("public void draw()".data) ("void draw()".data) ("method".data))] ∧
    Java.symbolsForLibrary [widgetNewLines] = some
      [(SymbolId.mk ("Widget".data) Kind.KLASS ("Widget".data),
        Java.Definition.mk ("public class Widget".data) ("Widget".data) ("class".data)),
       (SymbolId.mk ("Widget".data) Kind.CONSTRUCTOR ("Widget()".data),
        Java.Definition.mk ("public Widget()".data) ("Widget()".data) ("constructor".data)),
       (SymbolId.mk ("Widget".data) Kind.METHOD ("draw(int x)".data),
        Java.Definition.mk ("public void draw(int x)".data) ("void draw(int x)".data) ("method".data)),
       (SymbolId.mk ("Widget".data) Kind.FIELD ("color".data),
        Java.Definition.mk ("public int color".data) ("int color".data) ("field".data))] ∧
    widgetBucket =
      [Change.addition (SymbolId.mk ("Widget".data) Kind.FIELD ("color".data))
        (Java.Definition.mk ("public int color".data) ("int color".data) ("field".data)),
       Change.addition (SymbolId.mk ("Widget".data) Kind.METHOD ("draw(int x)".data))
        (Java.Definition.mk ("public void draw(int x)".data) ("void draw(int x)".data) ("method".data)),
       Change.deletion (SymbolId.mk ("Widget".data) Kind.METHOD ("draw()".data))
        (Java.Definition.mk ("public void draw()".data) ("void draw()".data) ("method".data))] ∧
    widgetBucket.countP isAdditionB = 2 ∧
    widgetBucket.countP isDeletionB = 1 ∧
    widgetBucket.countP isModificationB = 0 := by
  refine ⟨by decide, by decide, by decide, by decide, by decide, by decide⟩

/-! ### Claim C4: the renderer's section order and shape -/

theorem mapOpt_of_all_some {α β : Type} {f : α → Option β} (d : β) :
    ∀ {l : List α}, (∀ a ∈ l, f a ≠ none) →
      mapOpt f l = some (l.map fun a => (f a).getD d) := by
  intro l
  induction l with
  | nil => intro _; rfl
  | cons x xs ih =>
    intro h
    rw [mapOpt]
    rcases hx : f x with _ | b
    · exact absurd hx (h x (by simp))
    · rw [ih fun a ha => h a (by simp [ha])]
      simp [hx]

/-- When every entry of every listed section renders, the renderer's
output is the concatenation of the sections (heading, blank line, entries
joined by a blank line, two blank lines) and it runs to completion. -/
theorem renderGo_sections {D : Type} (sf : Str → Str) (entry : Change D → Option Str)
    (cs : List (Change D)) :
    ∀ ks : List Str, (∀ k ∈ ks, ∀ c ∈ bucketFor cs k, entry c ≠ none) →
      renderGo sf entry cs ks =
        (ks.flatMap fun k =>
          "## ".data ++ sf k ++ "\n\n".data ++
          List.intercalate ("\n\n".data)
            ((bucketFor cs k).map fun c => (entry c).getD []) ++
          "\n\n\n".data, true) := by
  intro ks
  induction ks with
  | nil => intro _; rfl
  | cons k ks ih =>
    intro h
    rw [renderGo]
    rw [mapOpt_of_all_some [] (h k (by simp))]
    rw [ih fun k2 hk2 => h k2 (by simp [hk2])]
    simp [List.append_assoc]

/-- C4, counterexample: the renderer emits sections in ascending order of
the RAW class name, not of the simplified name — on `c4Example` the
emitted simplified headings are `Z` then `A`, not ascending. -/
theorem claimC4_counterexample :
    emittedKlasses c4Example = ["a.Z".data, "b.A".data] ∧
    (emittedKlasses c4Example).map Java.simplify = ["Z".data, "A".data] ∧
    ¬ List.Sorted strLe ((emittedKlasses c4Example).map Java.simplify) ∧
    (Java.printMarkdown c4Example).1 =
      "## Z\n\n*new* class: `Z`\n\n\n## A\n\n*new* class: `A`\n\n\n".data := by
  refine ⟨by decide, by decide, by decide, by decide⟩

/-- C4 (amended): the renderer emits the per-class sections in ascending
order of the RAW declaring-class name; each section is a level-2 heading
with the simplified class name, a blank line, the change entries joined by
a blank line, and TWO trailing blank lines.  In the java variant this
holds for reports without Modifications (rendering a Modification crashes
on a missing attribute); in the android variant for reports whose kinds
are the four legal ones. -/
theorem claimC4 :
    (∀ cs : List (Change Java.Definition), (∀ c ∈ cs, isModificationB c = false) →
      Java.printMarkdown cs =
        ((emittedKlasses cs).flatMap fun k =>
          "## ".data ++ Java.simplify k ++ "\n\n".data ++
          List.intercalate ("\n\n".data)
            ((bucketFor cs k).map fun c => (Java.markdownForChange c).getD []) ++
          "\n\n\n".data, true) ∧
      List.Sorted strLe (emittedKlasses cs)) ∧
    (∀ cs : List (Change Str),
      (∀ c ∈ cs, (Android.kindLabel c.symbolId.kind).isSome = true) →
      Android.printMarkdown cs =
        ((emittedKlasses cs).flatMap fun k =>
          "## ".data ++ Android.simplify k ++ "\n\n".data ++
          List.intercalate ("\n\n".data)
            ((bucketFor cs k).map fun c => (Android.markdownForChange c).getD []) ++
          "\n\n\n".data, true) ∧
      List.Sorted strLe (emittedKlasses cs)) := by
  constructor
  · intro cs h
    constructor
    · rw [Java.printMarkdown, renderWith]
      apply renderGo_sections
      intro k _ c hc
      have hcs : c ∈ cs := List.mem_of_mem_filter hc
      rcases c with ⟨i, d⟩ | ⟨i, d⟩ | ⟨i, od, nd⟩
      · simp [Java.markdownForChange]
      · simp [Java.markdownForChange]
      · have := h _ hcs
        simp [isModificationB] at this
    · exact List.sorted_insertionSort strLe _
  · intro cs h
    constructor
    · rw [Android.printMarkdown, renderWith]
      apply renderGo_sections
      intro k _ c hc
      have hcs : c ∈ cs := List.mem_of_mem_filter hc
      have hk := h c hcs
      rcases c with ⟨i, d⟩ | ⟨i, d⟩ | ⟨i, od, nd⟩ <;>
        · rw [Android.markdownForChange]
          rcases hkl : Android.kindLabel i.kind with _ | kd
          · rw [Change.symbolId, hkl] at hk; cases hk
          · simp
    · exact List.sorted_insertionSort strLe _

/-- Witness for C4: the amended description instantiated on the concrete
report `c4Example` (java) and its android counterpart. -/
theorem claimC4_witness :
    (Java.printMarkdown c4Example =
      ((emittedKlasses c4Example).flatMap fun k =>
        "## ".data ++ Java.simplify k ++ "\n\n".data ++
        List.intercalate ("\n\n".data)
          ((bucketFor c4Example k).map fun c => (Java.markdownForChange c).getD []) ++
        "\n\n\n".data, true) ∧
      List.Sorted strLe (emittedKlasses c4Example)) ∧
    (Android.printMarkdown [Change.addition
        (SymbolId.mk ("b.A".data) Kind.KLASS ("b.A".data)) ("public class b.A".data)] =
      ((emittedKlasses [Change.addition
          (SymbolId.mk ("b.A".data) Kind.KLASS ("b.A".data)) ("public class b.A".data)]).flatMap
        fun k =>
          "## ".data ++ Android.simplify k ++ "\n\n".data ++
          List.intercalate ("\n\n".data)
            ((bucketFor [Change.addition
                (SymbolId.mk ("b.A".data) Kind.KLASS ("b.A".data))
                ("public class b.A".data)] k).map
              fun c => (Android.markdownForChange c).getD []) ++
          "\n\n\n".data, true) ∧
      List.Sorted strLe (emittedKlasses [Change.addition
        (SymbolId.mk ("b.A".data) Kind.KLASS ("b.A".data)) ("public class b.A".data)])) := by
  constructor
  · exact claimC4.1 c4Example (by decide)
  · exact claimC4.2 [Change.addition
      (SymbolId.mk ("b.A".data) Kind.KLASS ("b.A".data)) ("public class b.A".data)]
      (by decide)

/-! ### Claim C1: exactness of the diff -/

theorem dlookup_isSome_iff {D : Type} {t : List (SymbolId × D)} {k : SymbolId} :
    (dlookup t k).isSome = true ↔ k ∈ t.map Prod.fst := by
  rw [dlookup]
  constructor
  · intro h
    rcases hf : List.find? (fun p => decide (p.1 = k)) t.reverse with _ | x
    · rw [hf] at h; simp at h
    · have hx := List.find?_some hf
      have hmem := List.mem_of_find?_eq_some hf
      rw [List.mem_reverse] at hmem
      rw [decide_eq_true_eq] at hx
      exact List.mem_map.mpr ⟨x, hmem, hx⟩
  · intro h
    obtain ⟨x, hx, hpx⟩ := List.mem_map.mp h
    rcases hf : List.find? (fun p => decide (p.1 = k)) t.reverse with _ | y
    · rw [List.find?_eq_none] at hf
      exact absurd (by rw [decide_eq_true_eq]; exact hpx)
        (hf x (List.mem_reverse.mpr hx))
    · rw [hf]; rfl

theorem mem_keysOf_iff {D : Type} {t : List (SymbolId × D)} {k : SymbolId} :
    k ∈ keysOf t ↔ (dlookup t k).isSome = true := by
  rw [keysOf, List.mem_dedup, dlookup_isSome_iff]

theorem getD_of_dlookup {D : Type} [Inhabited D] {t : List (SymbolId × D)}
    {k : SymbolId} {d : D} (h : dlookup t k = some d) : getD t k = d := by
  rw [getD, h]
  rfl

/-- Filtering a tagged, duplicate-free segment of the change list for the
changes about `id` keeps at most the single entry built from `id`. -/
theorem changesOf_map_tag {D : Type} (g : SymbolId → Change D)
    (hg : ∀ k, (g k).symbolId = k) (id : SymbolId) :
    ∀ {l : List SymbolId}, l.Nodup →
      (l.map g).filter (fun c => decide (c.symbolId = id)) =
        if id ∈ l then [g id] else [] := by
  intro l
  induction l with
  | nil => intro _; simp
  | cons a as ih =>
    intro hl
    obtain ⟨ha, has⟩ := List.nodup_cons.mp hl
    rw [List.map_cons]
    by_cases hai : a = id
    · subst hai
      rw [List.filter_cons_of_pos (by simp [hg])]
      rw [if_pos (by simp)]
      have hnil : (as.map g).filter (fun c => decide (c.symbolId = a)) = [] := by
        rw [List.filter_eq_nil_iff]
        intro c hc
        obtain ⟨k, hk, rfl⟩ := List.mem_map.mp hc
        simp only [hg, decide_eq_true_eq]
        intro hka
        rw [hka] at hk
        exact ha hk
      rw [hnil]
    · rw [List.filter_cons_of_neg (by simp [hg, hai])]
      rw [ih has]
      have hiff : (id ∈ as) ↔ (id ∈ a :: as) := by
        rw [List.mem_cons]
        constructor
        · exact Or.inr
        · rintro (rfl | h)
          · exact absurd rfl hai
          · exact h
      rw [if_congr hiff rfl rfl]

theorem nodup_sorted_filter {D : Type} (p : SymbolId → Bool) (t : List (SymbolId × D)) :
    (List.insertionSort symbolIdLe ((keysOf t).filter p)).Nodup :=
  ((List.perm_insertionSort symbolIdLe _).nodup_iff).mpr
    ((List.nodup_dedup _).filter p)

theorem mem_sorted_filter {D : Type} {p : SymbolId → Bool} {t : List (SymbolId × D)}
    {id : SymbolId} :
    id ∈ List.insertionSort symbolIdLe ((keysOf t).filter p) ↔
      id ∈ keysOf t ∧ p id = true := by
  rw [(List.perm_insertionSort symbolIdLe _).mem_iff, List.mem_filter]

/-- Exactness of `_changes` around one identity: the changes that concern
`id` are exactly the at-most-one change dictated by `id`'s presence in the
two tables and the `differ` test. -/
theorem changesOf_changesFlat {D : Type} [Inhabited D] (differ : D → D → Bool)
    (oldT newT : List (SymbolId × D)) (id : SymbolId) :
    changesOf (changesFlat differ oldT newT) id =
      (if id ∈ keysOf newT ∧ id ∉ keysOf oldT
       then [Change.addition id (getD newT id)] else []) ++
      (if id ∈ keysOf oldT ∧ id ∉ keysOf newT
       then [Change.deletion id (getD oldT id)] else []) ++
      (if id ∈ keysOf oldT ∧ id ∈ keysOf newT ∧
          differ (getD oldT id) (getD newT id) = true
       then [Change.modification id (getD oldT id) (getD newT id)] else []) := by
  rw [changesFlat, changesOf]
  rw [List.filter_append, List.filter_append]
  have hadd := changesOf_map_tag (fun k => Change.addition k (getD newT k))
    (fun k => rfl) id (nodup_sorted_filter (fun k => decide (k ∉ keysOf oldT)) newT)
  have hdel := changesOf_map_tag (fun k => Change.deletion k (getD oldT k))
    (fun k => rfl) id (nodup_sorted_filter (fun k => decide (k ∉ keysOf newT)) oldT)
  have hmod := changesOf_map_tag
    (fun k => Change.modification k (getD oldT k) (getD newT k)) (fun k => rfl) id
    ((nodup_sorted_filter (fun k => decide (k ∈ keysOf newT)) oldT).filter
      (fun k => differ (getD oldT k) (getD newT k)))
  rw [hadd, hdel, hmod]
  have hiffadd : (id ∈ List.insertionSort symbolIdLe
      ((keysOf newT).filter fun k => decide (k ∉ keysOf oldT))) ↔
      (id ∈ keysOf newT ∧ id ∉ keysOf oldT) := by
    rw [mem_sorted_filter]
    simp
  have hiffdel : (id ∈ List.insertionSort symbolIdLe
      ((keysOf oldT).filter fun k => decide (k ∉ keysOf newT))) ↔
      (id ∈ keysOf oldT ∧ id ∉ keysOf newT) := by
    rw [mem_sorted_filter]
    simp
  have hiffmod : (id ∈ (List.insertionSort symbolIdLe
      ((keysOf oldT).filter fun k => decide (k ∈ keysOf newT))).filter
        (fun k => differ (getD oldT k) (getD newT k))) ↔
      (id ∈ keysOf oldT ∧ id ∈ keysOf newT ∧
        differ (getD oldT id) (getD newT id) = true) := by
    rw [List.mem_filter, mem_sorted_filter]
    simp [and_assoc]
  rw [if_congr hiffadd rfl rfl, if_congr hiffdel rfl rfl, if_congr hiffmod rfl rfl]

theorem changesOf_bucketFor {D : Type} (cs : List (Change D)) (id : SymbolId) :
    changesOf (bucketFor cs id.klass) id = changesOf cs id := by
  rw [bucketFor, changesOf, changesOf, List.filter_filter]
  apply List.filter_congr
  intro c _
  by_cases h : c.symbolId = id
  · simp [h]
  · simp [h]

/-- The four cases of diff exactness, for an abstract modification test. -/
theorem changesFlat_cases {D : Type} [Inhabited D] (differ : D → D → Bool)
    (oldT newT : List (SymbolId × D)) (id : SymbolId) :
    (∀ dn, dlookup oldT id = none → dlookup newT id = some dn →
      changesOf (changesFlat differ oldT newT) id = [Change.addition id dn]) ∧
    (∀ d0, dlookup newT id = none → dlookup oldT id = some d0 →
      changesOf (changesFlat differ oldT newT) id = [Change.deletion id d0]) ∧
    (∀ d0 dn, dlookup oldT id = some d0 → dlookup newT id = some dn →
      differ d0 dn = true →
      changesOf (changesFlat differ oldT newT) id =
        [Change.modification id d0 dn]) ∧
    (∀ d0 dn, dlookup oldT id = some d0 → dlookup newT id = some dn →
      differ d0 dn = false →
      changesOf (changesFlat differ oldT newT) id = []) := by
  have hmaster := changesOf_changesFlat differ oldT newT id
  refine ⟨?_, ?_, ?_, ?_⟩
  · intro dn ho hn
    have hmemN : id ∈ keysOf newT := mem_keysOf_iff.mpr (by rw [hn]; rfl)
    have hmemO : id ∉ keysOf oldT := by
      intro hm
      rw [mem_keysOf_iff, ho] at hm
      simp at hm
    rw [hmaster, if_pos ⟨hmemN, hmemO⟩, if_neg (fun h => hmemO h.1),
      if_neg (fun h => hmemO h.1), getD_of_dlookup hn]
    rfl
  · intro d0 hn ho
    have hmemO : id ∈ keysOf oldT := mem_keysOf_iff.mpr (by rw [ho]; rfl)
    have hmemN : id ∉ keysOf newT := by
      intro hm
      rw [mem_keysOf_iff, hn] at hm
      simp at hm
    rw [hmaster, if_neg (fun h => hmemN h.1), if_pos ⟨hmemO, hmemN⟩,
      if_neg (fun h => hmemN h.2.1), getD_of_dlookup ho]
    rfl
  · intro d0 dn ho hn hdf
    have hmemO : id ∈ keysOf oldT := mem_keysOf_iff.mpr (by rw [ho]; rfl)
    have hmemN : id ∈ keysOf newT := mem_keysOf_iff.mpr (by rw [hn]; rfl)
    rw [hmaster, if_neg (fun h => h.2 hmemO), if_neg (fun h => h.2 hmemN),
      if_pos ⟨hmemO, hmemN, by rw [getD_of_dlookup ho, getD_of_dlookup hn]; exact hdf⟩,
      getD_of_dlookup ho, getD_of_dlookup hn]
    rfl
  · intro d0 dn ho hn hdf
    have hmemO : id ∈ keysOf oldT := mem_keysOf_iff.mpr (by rw [ho]; rfl)
    have hmemN : id ∈ keysOf newT := mem_keysOf_iff.mpr (by rw [hn]; rfl)
    rw [hmaster, if_neg (fun h => h.2 hmemO), if_neg (fun h => h.2 hmemN),
      if_neg ?_]
    · rfl
    · rintro ⟨_, _, hd⟩
      rw [getD_of_dlookup ho, getD_of_dlookup hn, hdf] at hd
      cases hd

/-- C1: for every pair of symbol tables, the diff emits exactly one
Addition (carrying the new definition) for each identity only in the new
table, exactly one Deletion (carrying the old definition) for each
identity only in the old table, exactly one Modification carrying both
definitions unchanged for each persisted identity whose full definition
texts differ, and no Change at all for a persisted identity with identical
full text; each change sits in the report bucket of its declaring class.
Java variant (full = the `full` field) and android variant (the
definition string is the full text). -/
theorem claimC1 :
    (∀ (oldT newT : List (SymbolId × Java.Definition)) (id : SymbolId),
      (∀ dn, dlookup oldT id = none → dlookup newT id = some dn →
        changesOf (Java.changes oldT newT) id = [Change.addition id dn] ∧
        changesOf (bucketFor (Java.changes oldT newT) id.klass) id =
          [Change.addition id dn]) ∧
      (∀ d0, dlookup newT id = none → dlookup oldT id = some d0 →
        changesOf (Java.changes oldT newT) id = [Change.deletion id d0] ∧
        changesOf (bucketFor (Java.changes oldT newT) id.klass) id =
          [Change.deletion id d0]) ∧
      (∀ d0 dn, dlookup oldT id = some d0 → dlookup newT id = some dn →
        d0.full ≠ dn.full →
        changesOf (Java.changes oldT newT) id = [Change.modification id d0 dn] ∧
        changesOf (bucketFor (Java.changes oldT newT) id.klass) id =
          [Change.modification id d0 dn]) ∧
      (∀ d0 dn, dlookup oldT id = some d0 → dlookup newT id = some dn →
        d0.full = dn.full →
        changesOf (Java.changes oldT newT) id = [])) ∧
    (∀ (oldT newT : List (SymbolId × Str)) (id : SymbolId),
      (∀ dn, dlookup oldT id = none → dlookup newT id = some dn →
        changesOf (Android.changes oldT newT) id = [Change.addition id dn] ∧
        changesOf (bucketFor (Android.changes oldT newT) id.klass) id =
          [Change.addition id dn]) ∧
      (∀ d0, dlookup newT id = none → dlookup oldT id = some d0 →
        changesOf (Android.changes oldT newT) id = [Change.deletion id d0] ∧
        changesOf (bucketFor (Android.changes oldT newT) id.klass) id =
          [Change.deletion id d0]) ∧
      (∀ d0 dn, dlookup oldT id = some d0 → dlookup newT id = some dn →
        d0 ≠ dn →
        changesOf (Android.changes oldT newT) id = [Change.modification id d0 dn] ∧
        changesOf (bucketFor (Android.changes oldT newT) id.klass) id =
          [Change.modification id d0 dn]) ∧
      (∀ d0 dn, dlookup oldT id = some d0 → dlookup newT id = some dn →
        d0 = dn →
        changesOf (Android.changes oldT newT) id = [])) := by
  constructor
  · intro oldT newT id
    refine ⟨?_, ?_, ?_, ?_⟩
    · intro dn ho hn
      have h := (changesFlat_cases (fun a b => decide (a.full ≠ b.full))
        oldT newT id).1 dn ho hn
      exact ⟨h, by rw [changesOf_bucketFor]; exact h⟩
    · intro d0 hn ho
      have h := (changesFlat_cases (fun a b => decide (a.full ≠ b.full))
        oldT newT id).2.1 d0 hn ho
      exact ⟨h, by rw [changesOf_bucketFor]; exact h⟩
    · intro d0 dn ho hn hne
      have h := (changesFlat_cases (fun a b => decide (a.full ≠ b.full))
        oldT newT id).2.2.1 d0 dn ho hn (by rw [decide_eq_true_eq]; exact hne)
      exact ⟨h, by rw [changesOf_bucketFor]; exact h⟩
    · intro d0 dn ho hn heq
      exact (changesFlat_cases (fun a b => decide (a.full ≠ b.full))
        oldT newT id).2.2.2 d0 dn ho hn (by rw [decide_eq_false_iff_not]; simp [heq])
  · intro oldT newT id
    refine ⟨?_, ?_, ?_, ?_⟩
    · intro dn ho hn
      have h := (changesFlat_cases (fun a b => decide (a ≠ b))
        oldT newT id).1 dn ho hn
      exact ⟨h, by rw [changesOf_bucketFor]; exact h⟩
    · intro d0 hn ho
      have h := (changesFlat_cases (fun a b => decide (a ≠ b))
        oldT newT id).2.1 d0 hn ho
      exact ⟨h, by rw [changesOf_bucketFor]; exact h⟩
    · intro d0 dn ho hn hne
      have h := (changesFlat_cases (fun a b => decide (a ≠ b))
        oldT newT id).2.2.1 d0 dn ho hn (by rw [decide_eq_true_eq]; exact hne)
      exact ⟨h, by rw [changesOf_bucketFor]; exact h⟩
    · intro d0 dn ho hn heq
      exact (changesFlat_cases (fun a b => decide (a ≠ b))
        oldT newT id).2.2.2 d0 dn ho hn (by rw [decide_eq_false_iff_not]; simp [heq])

/-- Witness for C1: the four cases instantiated on `c1OldTable` /
`c1NewTable`. -/
theorem claimC1_witness :
    (changesOf (Java.changes c1OldTable c1NewTable)
        (SymbolId.mk ("C".data) Kind.FIELD ("x".data)) =
      [Change.addition (SymbolId.mk ("C".data) Kind.FIELD ("x".data))
        (Java.Definition.mk ("public int x".data) ("int x".data) ("field".data))] ∧
      changesOf (bucketFor (Java.changes c1OldTable c1NewTable)
          (SymbolId.mk ("C".data) Kind.FIELD ("x".data)).klass)
        (SymbolId.mk ("C".data) Kind.FIELD ("x".data)) =
      [Change.addition (SymbolId.mk ("C".data) Kind.FIELD ("x".data))
        (Java.Definition.mk ("public int x".data) ("int x".data) ("field".data))]) ∧
    (changesOf (Java.changes c1OldTable c1NewTable)
        (SymbolId.mk ("C".data) Kind.FIELD ("y".data)) =
      [Change.deletion (SymbolId.mk ("C".data) Kind.FIELD ("y".data))
        (Java.Definition.mk ("public int y".data) ("int y".data) ("field".data))]) ∧
    (changesOf (Java.changes c1OldTable c1NewTable)
        (SymbolId.mk ("C".data) Kind.METHOD ("m()".data)) =
      [Change.modification (SymbolId.mk ("C".data) Kind.METHOD ("m()".data))
        (Java.Definition.mk ("public void m() throws A".data) ("void m()".data) ("method".data))
        (Java.Definition.mk ("public void m() throws B".data) ("void m()".data) ("method".data))]) ∧
    (changesOf (Java.changes c1OldTable c1NewTable)
        (SymbolId.mk ("C".data) Kind.CONSTRUCTOR ("C()".data)) = []) := by
  refine ⟨?_, ?_, ?_, ?_⟩
  · exact (claimC1.1 c1OldTable c1NewTable (SymbolId.mk ("C".data) Kind.FIELD ("x".data))).1
      (Java.Definition.mk ("public int x".data) ("int x".data) ("field".data))
      (by decide) (by decide)
  · exact ((claimC1.1 c1OldTable c1NewTable
      (SymbolId.mk ("C".data) Kind.FIELD ("y".data))).2.1
      (Java.Definition.mk ("public int y".data) ("int y".data) ("field".data))
      (by decide) (by decide)).1
  · exact ((claimC1.1 c1OldTable c1NewTable
      (SymbolId.mk ("C".data) Kind.METHOD ("m()".data))).2.2.1
      (Java.Definition.mk ("public void m() throws A".data) ("void m()".data) ("method".data))
      (Java.Definition.mk ("public void m() throws B".data) ("void m()".data) ("method".data))
      (by decide) (by decide) (by decide)).1
  · exact (claimC1.1 c1OldTable c1NewTable
      (SymbolId.mk ("C".data) Kind.CONSTRUCTOR ("C()".data))).2.2.2
      (Java.Definition.mk ("public C()".data) ("C()".data) ("constructor".data))
      (Java.Definition.mk ("public C()".data) ("C()".data) ("constructor".data))
      (by decide) (by decide) (by decide)

/-! ### Claim C5: determinism under directory-traversal order -/

theorem mapOpt_eq_none_iff {α β : Type} {f : α → Option β} {l : List α} :
    mapOpt f l = none ↔ ∃ a ∈ l, f a = none := by
  induction l with
  | nil => simp [mapOpt]
  | cons x xs ih =>
    rw [mapOpt]
    rcases hx : f x with _ | b
    · simp [hx]
    · rcases hxs : mapOpt f xs with _ | r
      · simp only [hxs, Option.map_none]
        constructor
        · intro _
          obtain ⟨a, ha, hfa⟩ := ih.mp hxs
          exact ⟨a, by simp [ha], hfa⟩
        · intro _; rfl
      · simp only [hxs, Option.map_some]
        constructor
        · intro h; cases h
        · rintro ⟨a, ha, hfa⟩
          rcases List.mem_cons.mp ha with rfl | ha'
          · rw [hfa] at hx; cases hx
          · rw [ih.mpr ⟨a, ha', hfa⟩] at hxs; cases hxs

theorem mapOpt_eq_some_filterMap {α β : Type} {f : α → Option β} :
    ∀ {l : List α} {r : List β}, mapOpt f l = some r → r = l.filterMap f := by
  intro l
  induction l with
  | nil => intro r h; simpa [mapOpt] using h.symm
  | cons x xs ih =>
    intro r h
    rw [mapOpt] at h
    rcases hx : f x with _ | b
    · rw [hx] at h; cases h
    · rw [hx] at h
      rcases hxs : mapOpt f xs with _ | rs
      · rw [hxs] at h; cases h
      · rw [hxs] at h
        have : r = b :: rs := by simpa using h.symm
        rw [this, List.filterMap_cons_some hx, ih hxs]

theorem tableConsistent_of_consistentB {D : Type} [DecidableEq D]
    {t : List (SymbolId × D)} (h : consistentB t = true) : TableConsistent t := by
  intro k v1 v2 h1 h2
  rw [consistentB, List.all_eq_true] at h
  have hp := h (k, v1) h1
  rw [List.all_eq_true] at hp
  have hq := hp (k, v2) h2
  simp only [Bool.or_eq_true, Bool.not_eq_true', decide_eq_false_iff_not,
    decide_eq_true_eq] at hq
  rcases hq with hq | hq
  · exact absurd trivial hq
  · exact hq

theorem dlookup_mem {D : Type} {t : List (SymbolId × D)} {k : SymbolId} {v : D}
    (h : dlookup t k = some v) : (k, v) ∈ t := by
  rw [dlookup] at h
  rcases hf : List.find? (fun p => decide (p.1 = k)) t.reverse with _ | x
  · rw [hf] at h; cases h
  · rw [hf] at h
    have hx := List.find?_some hf
    have hmem := List.mem_of_find?_eq_some hf
    rw [List.mem_reverse] at hmem
    rw [decide_eq_true_eq] at hx
    have hv : x.2 = v := by simpa using h
    have : x = (k, v) := by
      rcases x with ⟨x1, x2⟩
      simp only at hx hv
      rw [hx, hv]
    rw [this] at hmem
    exact hmem

/-- Under consistency, the last-write-wins lookup is a pure function of
the binding set, hence invariant under permutation of the table. -/
theorem dlookup_eq_of_perm_consistent {D : Type} {t1 t2 : List (SymbolId × D)}
    (hp : t1.Perm t2) (hc : TableConsistent t1) (k : SymbolId) :
    dlookup t1 k = dlookup t2 k := by
  rcases h1 : dlookup t1 k with _ | v1
  · rcases h2 : dlookup t2 k with _ | v2
    · rfl
    · have hmem := dlookup_mem h2
      have hmem1 : (k, v2) ∈ t1 := hp.mem_iff.mpr hmem
      have : (dlookup t1 k).isSome = true :=
        dlookup_isSome_iff.mpr (List.mem_map.mpr ⟨(k, v2), hmem1, rfl⟩)
      rw [h1] at this
      cases this
  · have hmem1 := dlookup_mem h1
    have hmem2 : (k, v1) ∈ t2 := hp.mem_iff.mp hmem1
    rcases h2 : dlookup t2 k with _ | v2
    · have : (dlookup t2 k).isSome = true :=
        dlookup_isSome_iff.mpr (List.mem_map.mpr ⟨(k, v1), hmem2, rfl⟩)
      rw [h2] at this
      cases this
    · have hmem2' : (k, v2) ∈ t1 := hp.mem_iff.mpr (dlookup_mem h2)
      rw [hc k v1 v2 hmem1 hmem2']

/-- Two duplicate-free identity lists with the same members sort to the
same list. -/
theorem sortedKeys_congr {l1 l2 : List SymbolId} (h1 : l1.Nodup) (h2 : l2.Nodup)
    (hm : ∀ x, x ∈ l1 ↔ x ∈ l2) :
    List.insertionSort symbolIdLe l1 = List.insertionSort symbolIdLe l2 := by
  apply List.eq_of_perm_of_sorted ?_ (List.sorted_insertionSort symbolIdLe l1)
    (List.sorted_insertionSort symbolIdLe l2)
  exact (List.perm_insertionSort symbolIdLe l1).trans
    (((List.perm_ext_iff_of_nodup h1 h2).mpr hm).trans
      (List.perm_insertionSort symbolIdLe l2).symm)

/-- The diff depends on its two tables only through their lookup
functions. -/
theorem changesFlat_congr {D : Type} [Inhabited D] (differ : D → D → Bool)
    {o1 o2 n1 n2 : List (SymbolId × D)}
    (ho : ∀ k, dlookup o1 k = dlookup o2 k)
    (hn : ∀ k, dlookup n1 k = dlookup n2 k) :
    changesFlat differ o1 n1 = changesFlat differ o2 n2 := by
  have hmo : ∀ k, k ∈ keysOf o1 ↔ k ∈ keysOf o2 := fun k => by
    rw [mem_keysOf_iff, mem_keysOf_iff, ho k]
  have hmn : ∀ k, k ∈ keysOf n1 ↔ k ∈ keysOf n2 := fun k => by
    rw [mem_keysOf_iff, mem_keysOf_iff, hn k]
  have hgo : ∀ k, getD o1 k = getD o2 k := fun k => by rw [getD, getD, ho k]
  have hgn : ∀ k, getD n1 k = getD n2 k := fun k => by rw [getD, getD, hn k]
  have haddkeys : List.insertionSort symbolIdLe
      ((keysOf n1).filter fun k => decide (k ∉ keysOf o1)) =
      List.insertionSort symbolIdLe
      ((keysOf n2).filter fun k => decide (k ∉ keysOf o2)) := by
    apply sortedKeys_congr ((List.nodup_dedup _).filter _)
      ((List.nodup_dedup _).filter _)
    intro x
    have h1 := hmn x
    have h2 := hmo x
    simp only [keysOf] at h1 h2
    rw [List.mem_filter, List.mem_filter]
    simp only [decide_eq_true_eq, keysOf]
    rw [h1]
    constructor
    · rintro ⟨hx1, hx2⟩; exact ⟨hx1, fun hh => hx2 (h2.mpr hh)⟩
    · rintro ⟨hx1, hx2⟩; exact ⟨hx1, fun hh => hx2 (h2.mp hh)⟩
  have hdelkeys : List.insertionSort symbolIdLe
      ((keysOf o1).filter fun k => decide (k ∉ keysOf n1)) =
      List.insertionSort symbolIdLe
      ((keysOf o2).filter fun k => decide (k ∉ keysOf n2)) := by
    apply sortedKeys_congr ((List.nodup_dedup _).filter _)
      ((List.nodup_dedup _).filter _)
    intro x
    have h1 := hmn x
    have h2 := hmo x
    simp only [keysOf] at h1 h2
    rw [List.mem_filter, List.mem_filter]
    simp only [decide_eq_true_eq, keysOf]
    rw [h2]
    constructor
    · rintro ⟨hx1, hx2⟩; exact ⟨hx1, fun hh => hx2 (h1.mpr hh)⟩
    · rintro ⟨hx1, hx2⟩; exact ⟨hx1, fun hh => hx2 (h1.mp hh)⟩
  have hperskeys : List.insertionSort symbolIdLe
      ((keysOf o1).filter fun k => decide (k ∈ keysOf n1)) =
      List.insertionSort symbolIdLe
      ((keysOf o2).filter fun k => decide (k ∈ keysOf n2)) := by
    apply sortedKeys_congr ((List.nodup_dedup _).filter _)
      ((List.nodup_dedup _).filter _)
    intro x
    have h1 := hmn x
    have h2 := hmo x
    simp only [keysOf] at h1 h2
    rw [List.mem_filter, List.mem_filter]
    simp only [decide_eq_true_eq, keysOf]
    rw [h2, h1]
  have hA : List.map (fun k => Change.addition k (getD n1 k))
      (List.insertionSort symbolIdLe
        ((keysOf n2).filter fun k => decide (k ∉ keysOf o2))) =
      List.map (fun k => Change.addition k (getD n2 k))
      (List.insertionSort symbolIdLe
        ((keysOf n2).filter fun k => decide (k ∉ keysOf o2))) :=
    List.map_congr_left fun k _ => by rw [hgn k]
  have hB : List.map (fun k => Change.deletion k (getD o1 k))
      (List.insertionSort symbolIdLe
        ((keysOf o2).filter fun k => decide (k ∉ keysOf n2))) =
      List.map (fun k => Change.deletion k (getD o2 k))
      (List.insertionSort symbolIdLe
        ((keysOf o2).filter fun k => decide (k ∉ keysOf n2))) :=
    List.map_congr_left fun k _ => by rw [hgo k]
  have hCf : List.filter (fun k => differ (getD o1 k) (getD n1 k))
      (List.insertionSort symbolIdLe
        ((keysOf o2).filter fun k => decide (k ∈ keysOf n2))) =
      List.filter (fun k => differ (getD o2 k) (getD n2 k))
      (List.insertionSort symbolIdLe
        ((keysOf o2).filter fun k => decide (k ∈ keysOf n2))) :=
    List.filter_congr fun k _ => by rw [hgo k, hgn k]
  have hCm : List.map (fun k => Change.modification k (getD o1 k) (getD n1 k))
      (List.filter (fun k => differ (getD o2 k) (getD n2 k))
        (List.insertionSort symbolIdLe
          ((keysOf o2).filter fun k => decide (k ∈ keysOf n2)))) =
      List.map (fun k => Change.modification k (getD o2 k) (getD n2 k))
      (List.filter (fun k => differ (getD o2 k) (getD n2 k))
        (List.insertionSort symbolIdLe
          ((keysOf o2).filter fun k => decide (k ∈ keysOf n2)))) :=
    List.map_congr_left fun k _ => by rw [hgo k, hgn k]
  simp only [changesFlat]
  rw [haddkeys, hdelkeys, hperskeys, hA, hB, hCf, hCm]

/-- Parsing a snapshot whose files are permuted either fails in both
enumeration orders or yields permuted tables. -/
theorem symbolsForLibrary_perm {files1 files2 : List (List Str)}
    (hp : files1.Perm files2) :
    (Java.symbolsForLibrary files1 = none ∧ Java.symbolsForLibrary files2 = none) ∨
    (∃ t1 t2, Java.symbolsForLibrary files1 = some t1 ∧
      Java.symbolsForLibrary files2 = some t2 ∧ t1.Perm t2) := by
  rcases h1 : mapOpt Java.symbolsForKlass files1 with _ | rs1
  · left
    obtain ⟨a, ha, hfa⟩ := mapOpt_eq_none_iff.mp h1
    have h2 : mapOpt Java.symbolsForKlass files2 = none :=
      mapOpt_none_of_mem (hp.mem_iff.mp ha) hfa
    rw [Java.symbolsForLibrary, Java.symbolsForLibrary, h1, h2]
    exact ⟨rfl, rfl⟩
  · rcases h2 : mapOpt Java.symbolsForKlass files2 with _ | rs2
    · obtain ⟨a, ha, hfa⟩ := mapOpt_eq_none_iff.mp h2
      have : mapOpt Java.symbolsForKlass files1 = none :=
        mapOpt_none_of_mem (hp.mem_iff.mpr ha) hfa
      rw [h1] at this
      cases this
    · right
      refine ⟨rs1.flatten, rs2.flatten, ?_, ?_, ?_⟩
      · rw [Java.symbolsForLibrary, h1]; rfl
      · rw [Java.symbolsForLibrary, h2]; rfl
      · rw [mapOpt_eq_some_filterMap h1, mapOpt_eq_some_filterMap h2]
        exact (hp.filterMap Java.symbolsForKlass).flatten

/-- C5, counterexample: the two files both define field `a` of class `Foo`
with different definitions; enumerating them in the two orders produces
different markdown bytes (`int a` vs `long a` in the report). -/
theorem claimC5_counterexample :
    Java.printApiDiff [c5FileA, c5FileB] [] ≠
      Java.printApiDiff [c5FileB, c5FileA] [] := by
  decide

/-- C5 (amended): for a fixed pair of snapshot inputs, IF in each snapshot
no symbol identity is bound to two different definitions, running the
pipeline with the files enumerated in any two orders produces identical
output (byte-identical markdown, or the same abort). -/
theorem claimC5 (olds1 olds2 news1 news2 : List (List Str))
    (ho : olds1.Perm olds2) (hn : news1.Perm news2)
    (hco : consistentOptB (Java.symbolsForLibrary olds1) = true)
    (hcn : consistentOptB (Java.symbolsForLibrary news1) = true) :
    Java.printApiDiff olds1 news1 = Java.printApiDiff olds2 news2 := by
  rcases symbolsForLibrary_perm ho with ⟨ho1, ho2⟩ | ⟨o1, o2, ho1, ho2, hop⟩
  · rw [Java.printApiDiff, Java.printApiDiff, ho1, ho2]
  · rcases symbolsForLibrary_perm hn with ⟨hn1, hn2⟩ | ⟨n1, n2, hn1, hn2, hnp⟩
    · rw [Java.printApiDiff, Java.printApiDiff, hn1, hn2, ho1, ho2]
    · rw [Java.printApiDiff, Java.printApiDiff, ho1, ho2, hn1, hn2]
      have hcon1 : TableConsistent o1 := by
        rw [ho1] at hco
        exact tableConsistent_of_consistentB hco
      have hconn1 : TableConsistent n1 := by
        rw [hn1] at hcn
        exact tableConsistent_of_consistentB hcn
      have hchanges : Java.changes o1 n1 = Java.changes o2 n2 :=
        changesFlat_congr _ (dlookup_eq_of_perm_consistent hop hcon1)
          (dlookup_eq_of_perm_consistent hnp hconn1)
      simp only []
      exact congrArg (fun cs => some (Java.printMarkdown cs)) hchanges

/-- Witness for C5: collision-free snapshots enumerated in two orders. -/
theorem claimC5_witness :
    Java.printApiDiff
        [["public class A \x7b".data, "public int a;".data, "\x7d".data],
         ["public class B \x7b".data, "public int b;".data, "\x7d".data]]
        [["public class A \x7b".data, "public int a;".data, "\x7d".data]] =
      Java.printApiDiff
        [["public class B \x7b".data, "public int b;".data, "\x7d".data],
         ["public class A \x7b".data, "public int a;".data, "\x7d".data]]
        [["public class A \x7b".data, "public int a;".data, "\x7d".data]] := by
  exact claimC5
    [["public class A \x7b".data, "public int a;".data, "\x7d".data],
     ["public class B \x7b".data, "public int b;".data, "\x7d".data]]
    [["public class B \x7b".data, "public int b;".data, "\x7d".data],
     ["public class A \x7b".data, "public int a;".data, "\x7d".data]]
    [["public class A \x7b".data, "public int a;".data, "\x7d".data]]
    [["public class A \x7b".data, "public int a;".data, "\x7d".data]]
    (List.Perm.swap _ _ _) (List.Perm.refl _) (by decide) (by decide)
